import Mathlib

/-!
Verification of the code-flow-visualizer call-graph core.

This development shallowly embeds the analyzer (`FunctionNode`, `CodeAnalysis`,
`calculateSignificance`, `buildCalledByRelationships`, `mergeAnalyses`), the
webview progressive-disclosure filter (`SIGNIFICANCE_LEVELS`,
`getMinSignificance`, `shouldShowFunction`), the hierarchical layout
(`calculateHierarchicalLayout`) and the position sanitation loop of the
renderer, and proves the documented properties about them.

Modelling conventions:
* JavaScript `Map`s are insertion-ordered association lists
  (`List (String × FunctionNode)`); `mapGet`/`mapSet`/`mapHas` implement
  `get`/`set`/`has` (`set` of an existing key updates the value in place,
  keeping the entry's position, exactly like a JS `Map`).
* JavaScript numbers are `Int` where the program only ever produces integers
  (scores, counts) and `ℚ` where fractional values occur (zoom scale, layout
  coordinates).
* `undefined` optional fields are `Option _`.
-/

namespace CodeFlow

/-- One analyzed function — the analyzer's `FunctionNode` interface. -/
structure FunctionNode where
  name : String
  displayName : String
  startLine : Nat
  endLine : Nat
  calls : List String
  calledBy : List String
  params : List String
  complexity : String
  fileName : Option String
  significance : Option Int
deriving DecidableEq, Repr

/-- One file's analysis result — the analyzer's `CodeAnalysis` interface.
`functions` is a JS `Map` from local name to record, kept in insertion
order. -/
structure CodeAnalysis where
  fileName : String
  language : String
  functions : List (String × FunctionNode)
  imports : List String
  exports : List String
deriving DecidableEq, Repr

/-! ### JS `Map` operations on the association-list model -/

/-- JS `map.get(k)` — first entry with the key, if any. -/
def mapGet (m : List (String × FunctionNode)) (k : String) : Option FunctionNode :=
  (m.find? (fun e => e.1 == k)).map Prod.snd

/-- JS `map.has(k)`. -/
def mapHas (m : List (String × FunctionNode)) (k : String) : Bool :=
  (m.find? (fun e => e.1 == k)).isSome

/-- JS `map.set(k, v)` — replace in place if the key exists, else append. -/
def mapSet : List (String × FunctionNode) → String → FunctionNode → List (String × FunctionNode)
  | [], k, v => [(k, v)]
  | e :: rest, k, v => if e.1 == k then (k, v) :: rest else e :: mapSet rest k v

/-! ### Significance scoring (`calculateSignificance` in the analyzer) -/

/-- The filter body inside the deep-in-chain penalty of
`calculateSignificance`: the callee resolves to a function of the graph and
that function has at least one caller. -/
def calleeHasCaller (functions : List FunctionNode) (calledName : String) : Bool :=
  match functions.find? (fun f => f.name == calledName) with
  | some calledFunc => decide (calledFunc.calledBy.length > 0)
  | none => false

/-- Score of one function, exactly as computed inside the `forEach` body of
`calculateSignificance`: base 50, entry-point bonus, hub bonus, coordinator
bonus, reused-helper penalty, deep-in-chain penalty, export bonus, then the
clamp `Math.max(0, Math.min(100, score))`. -/
def significanceScore (functions : List FunctionNode) (exports : List String)
    (func : FunctionNode) : Int :=
  let score : Int := 50
  let score := if func.calledBy.length = 0 then score + 40 else score
  let score := if func.calledBy.length > 0 then
      score + min ((func.calledBy.length : Int) * 8) 30 else score
  let score := if func.calls.length > 3 then
      score + min ((func.calls.length : Int) * 2) 10 else score
  let score := if func.calledBy.length > 3 then score - 20 else score
  let score :=
    if func.calls.length > 0 ∧ func.calledBy.length > 0 then
      let calleesAlsoCalled := (func.calls.filter (calleeHasCaller functions)).length
      if calleesAlsoCalled > 2 then score - 15 else score
    else score
  let score := if func.name ∈ exports then score + 20 else score
  max 0 (min 100 score)

/-- The full significance pass: recompute every record's `significance` from
the current graph (no-op on an empty graph, as in the source). -/
def calculateSignificance (analysis : CodeAnalysis) : CodeAnalysis :=
  let functions := analysis.functions.map Prod.snd
  if functions.length = 0 then analysis
  else
    { analysis with
      functions := analysis.functions.map (fun e =>
        (e.1, { e.2 with
                significance := some (significanceScore functions analysis.exports e.2) })) }

/-- Significance as the specification words it: clamp to [0,100] of 50 plus the
six additive adjustments.  `deepCallees` counts the callees that themselves
have at least one caller (phrased as an existential over the graph). -/
def specSignificance (functions : List FunctionNode) (exports : List String)
    (func : FunctionNode) : Int :=
  let callers : Nat := func.calledBy.length
  let ncalls : Nat := func.calls.length
  let deepCallees : Nat :=
    (func.calls.filter (fun c =>
        decide (∃ g ∈ functions, g.name = c ∧ g.calledBy ≠ []))).length
  let raw : Int := 50
    + (if callers = 0 then 40 else 0)
    + (if callers > 0 then min ((callers : Int) * 8) 30 else 0)
    + (if ncalls > 3 then min ((ncalls : Int) * 2) 10 else 0)
    - (if callers > 3 then 20 else 0)
    - (if ncalls > 0 ∧ callers > 0 ∧ deepCallees > 2 then 15 else 0)
    + (if func.name ∈ exports then 20 else 0)
  max 0 (min 100 raw)

lemma find?_name_eq_none {functions : List FunctionNode} {c : String}
    (h : functions.find? (fun f => f.name == c) = none) :
    ¬ ∃ g ∈ functions, g.name = c ∧ g.calledBy ≠ [] := by
  rintro ⟨g, hg, hname, _⟩
  have := List.find?_eq_none.mp h g hg
  simp [hname] at this

lemma calleeHasCaller_eq (functions : List FunctionNode) (c : String)
    (h : (functions.map FunctionNode.name).Nodup) :
    calleeHasCaller functions c
      = decide (∃ g ∈ functions, g.name = c ∧ g.calledBy ≠ []) := by
  have hinj := List.inj_on_of_nodup_map h
  unfold calleeHasCaller
  cases hfind : functions.find? (fun f => f.name == c) with
  | none =>
    exact (decide_eq_false (find?_name_eq_none hfind)).symm
  | some g =>
    have hmem := List.mem_of_find?_eq_some hfind
    have hname : g.name = c := by
      have := List.find?_some hfind
      simpa using this
    show decide (g.calledBy.length > 0)
        = decide (∃ g' ∈ functions, g'.name = c ∧ g'.calledBy ≠ [])
    by_cases hcb : g.calledBy = []
    · have hne : ¬ ∃ g' ∈ functions, g'.name = c ∧ g'.calledBy ≠ [] := by
        rintro ⟨g', hg', hname', hcb'⟩
        have : g = g' := hinj hmem hg' (by rw [hname, hname'])
        exact hcb' (this ▸ hcb)
      rw [decide_eq_false hne, hcb]
      simp
    · have hex : ∃ g' ∈ functions, g'.name = c ∧ g'.calledBy ≠ [] := ⟨g, hmem, hname, hcb⟩
      rw [decide_eq_true hex]
      simp [List.length_pos, hcb]

set_option maxHeartbeats 1000000 in
lemma score_eq_spec (functions : List FunctionNode) (exports : List String)
    (func : FunctionNode)
    (h : (functions.map FunctionNode.name).Nodup) :
    significanceScore functions exports func = specSignificance functions exports func := by
  have hfilter :
      (func.calls.filter (calleeHasCaller functions))
      = (func.calls.filter (fun c =>
          decide (∃ g ∈ functions, g.name = c ∧ g.calledBy ≠ []))) :=
    List.filter_congr (fun c _ => calleeHasCaller_eq functions c h)
  simp only [significanceScore, specSignificance, hfilter]
  split_ifs <;> omega

/-- C2: every record in a scored graph carries exactly the clamped additive
score the specification describes (stated as: the significance pass rewrites
every entry's `significance` to `specSignificance`, leaving everything else
unchanged).  The `Nodup` hypothesis says record names are unique, which holds
for every graph the program builds since `functions` is a JS `Map` keyed by
name. -/
theorem C2_significance_formula (a : CodeAnalysis)
    (h : ((a.functions.map Prod.snd).map FunctionNode.name).Nodup) :
    (calculateSignificance a).functions
      = a.functions.map (fun e =>
          (e.1, { e.2 with
                  significance := some (specSignificance (a.functions.map Prod.snd)
                                          a.exports e.2) })) := by
  unfold calculateSignificance
  by_cases hlen : (a.functions.map Prod.snd).length = 0
  · have : a.functions = [] := by
      have := List.length_eq_zero.mp (by simpa using hlen)
      simpa using this
    simp [this, hlen]
  · simp only [hlen, if_neg hlen]
    apply List.map_congr_left
    intro e _
    have := score_eq_spec (a.functions.map Prod.snd) a.exports e.2 h
    rw [this]

/-- A small concrete record used by witnesses: `main` calls `help`. -/
def sampleMain : FunctionNode :=
  { name := "main", displayName := "main", startLine := 0, endLine := 3,
    calls := ["help"], calledBy := [], params := [], complexity := "",
    fileName := some "t.ts", significance := none }

/-- A small concrete record used by witnesses: `help`, called by `main`. -/
def sampleHelp : FunctionNode :=
  { name := "help", displayName := "help", startLine := 4, endLine := 6,
    calls := [], calledBy := ["main"], params := [], complexity := "",
    fileName := some "t.ts", significance := none }

/-- A small concrete single-file analysis used by witnesses. -/
def sampleAnalysis : CodeAnalysis :=
  { fileName := "t.ts", language := "typescript",
    functions := [("main", sampleMain), ("help", sampleHelp)],
    imports := [], exports := ["main"] }

/-- Witness for C2 on a concrete two-function graph. -/
theorem C2_significance_formula_witness :
    (calculateSignificance sampleAnalysis).functions
      = sampleAnalysis.functions.map (fun e =>
          (e.1, { e.2 with
                  significance := some (specSignificance
                    (sampleAnalysis.functions.map Prod.snd) sampleAnalysis.exports e.2) })) :=
  C2_significance_formula sampleAnalysis (by decide)

/-- C3 counterexample: with every other scorer input fixed, raising the caller
count of `main` from 0 to 1 moves its score from 90 to 58 — the claimed strict
increase fails at this concrete input. -/
theorem C3_counterexample :
    ¬ (significanceScore [] [] { sampleMain with calls := [], calledBy := ["g"] }
        > significanceScore [] [] { sampleMain with calls := [], calledBy := [] }) := by
  have h1 : significanceScore [] [] { sampleMain with calls := [], calledBy := ["g"] } = 58 := by
    simp only [significanceScore]
    norm_num
  have h2 : significanceScore [] [] { sampleMain with calls := [], calledBy := [] } = 90 := by
    simp only [significanceScore]
    norm_num
  omega

/-- C3 amended: increasing a node's caller count from 0 to 1, holding every
other input of the scorer fixed, strictly DECREASES its significance (the +40
entry-point bonus is lost and only a +8 hub bonus is gained; clamping cannot
close the gap since the caller-free score is at least 90 and the one-caller
score is at most 88). -/
theorem C3_zero_to_one_caller_decreases
    (functions : List FunctionNode) (exports : List String)
    (func : FunctionNode) (c : String) :
    significanceScore functions exports { func with calledBy := [c] }
      < significanceScore functions exports { func with calledBy := [] } := by
  have h1 : significanceScore functions exports { func with calledBy := [] } ≥ 90 := by
    simp only [significanceScore]
    norm_num
    split_ifs <;> omega
  have h2 : significanceScore functions exports { func with calledBy := [c] } ≤ 88 := by
    simp only [significanceScore]
    norm_num
    split_ifs <;> omega
  omega

/-! ### Rebuilding callers (`buildCalledByRelationships` and merge pass 3)

Both passes run the same loop: for every function and every entry of its
`calls`, locate the callee record and push the caller's identifier onto its
`calledBy` unless already present, mutating the record in place.  The
single-file pass locates the callee by record `name` and tags callers with
the caller's `name`; the merge pass locates it by map key (`Map.get`) and
tags callers with the caller's key.  `sel` abstracts that choice. -/

/-- Source line `if (!targetFunc.calledBy.includes(caller)) targetFunc.calledBy.push(caller)`. -/
def pushCaller (callerName : String) (e : String × FunctionNode) : String × FunctionNode :=
  if callerName ∈ e.2.calledBy then e
  else (e.1, { e.2 with calledBy := e.2.calledBy ++ [callerName] })

/-- Register one call edge: update the first entry whose `sel`-identifier is
`calledName` (the `find` / `Map.get` of the source loops); entries without a
match are left untouched. -/
def addCallerBy (sel : String × FunctionNode → String) :
    List (String × FunctionNode) → String → String → List (String × FunctionNode)
  | [], _, _ => []
  | e :: rest, callerName, calledName =>
    if sel e == calledName then pushCaller callerName e :: rest
    else e :: addCallerBy sel rest callerName calledName

/-- The `(caller, callee)` pairs both loops iterate over, in iteration order:
for every function of the map, its `calls` tagged with the caller's
`sel`-identifier.  (The loops never mutate `calls` or the identifiers, so the
pair sequence can be read off up front.) -/
def callEdgesBy (sel : String × FunctionNode → String)
    (m : List (String × FunctionNode)) : List (String × String) :=
  m.flatMap (fun e => e.2.calls.map (fun c => (sel e, c)))

/-- Run the whole caller-rebuilding loop. -/
def foldCallers (sel : String × FunctionNode → String) (edges : List (String × String))
    (m : List (String × FunctionNode)) : List (String × FunctionNode) :=
  edges.foldl (fun acc e => addCallerBy sel acc e.1 e.2) m

/-- Function `buildCalledByRelationships`: for every function and every called name,
find the first function with that `name` and push the caller's `name` onto
its `calledBy` if absent. -/
def buildCalledByRelationships (analysis : CodeAnalysis) : CodeAnalysis :=
  { analysis with
    functions := foldCallers (fun e => e.2.name)
      (callEdgesBy (fun e => e.2.name) analysis.functions) analysis.functions }

/-! ### Cross-file merge (`mergeAnalyses`) -/

/-- Character-level splitter modelling JS `String.prototype.split` with a
one-character separator (`"a/b".split('/') = ["a","b"]`, `"a/".split('/')
= ["a",""]`, `"".split('/') = [""]`). -/
def splitChar (sep : Char) : List Char → List Char → List (List Char)
  | [], acc => [acc.reverse]
  | c :: rest, acc =>
    if c = sep then acc.reverse :: splitChar sep rest []
    else splitChar sep rest (c :: acc)

/-- Source expression `analysis.fileName.split('/').pop() || analysis.fileName`: the trailing
path segment, or the whole file name when that segment is falsy (empty). -/
def fileLabel (fileName : String) : String :=
  let parts := (splitChar '/' fileName.data []).map String.mk
  let lastSeg := parts.getLastD ""
  if lastSeg = "" then fileName else lastSeg

/-- JS `String.prototype.startsWith`, at the character-list level. -/
def strStartsWith (p s : String) : Bool := p.data.isPrefixOf s.data

/-- The globally unique merge key `` `${name}::${fileLabel}` ``. -/
def uniqueKey (name lbl : String) : String := name ++ "::" ++ lbl

/-- The initial merged record of `mergeAnalyses`. -/
def mergedInit : CodeAnalysis :=
  { fileName := "Workspace Analysis", language := "multiple",
    functions := [], imports := [], exports := [] }

/-- The body of the first `for` loop of `mergeAnalyses` for one input file:
re-key every function as `uniqueKey` (silently overwriting colliding keys)
and concatenate imports and exports. -/
def mergePass1Step (merged : CodeAnalysis) (analysis : CodeAnalysis) : CodeAnalysis :=
  let lbl := fileLabel analysis.fileName
  { merged with
    functions := analysis.functions.foldl (fun m p =>
      mapSet m (uniqueKey p.1 lbl)
        { p.2 with name := uniqueKey p.1 lbl, displayName := p.1,
                   fileName := some analysis.fileName }) merged.functions,
    imports := merged.imports ++ analysis.imports,
    exports := merged.exports ++ analysis.exports }

/-- Merge pass 1 (first loop of `mergeAnalyses`). -/
def mergePass1 (analyses : List CodeAnalysis) : CodeAnalysis :=
  analyses.foldl mergePass1Step mergedInit

/-- The call-rewriting closure of merge pass 2: prefer the same-file key; else
scan the map's keys in iteration order for the first one starting with
`calledName + "::"`; else keep the raw name. -/
def resolveCallee (funcs : List (String × FunctionNode)) (lbl calledName : String) : String :=
  let sameFileKey := uniqueKey calledName lbl
  if mapHas funcs sameFileKey then sameFileKey
  else
    match funcs.find? (fun e => strStartsWith (calledName ++ "::") e.1) with
    | some e => e.1
    | none => calledName

/-- Merge pass 2 (second loop of `mergeAnalyses`): rewrite each merged
record's `calls` through `resolveCallee` against the current map and reset its
`calledBy` to empty. -/
def mergePass2 (analyses : List CodeAnalysis) (merged : CodeAnalysis) : CodeAnalysis :=
  { merged with
    functions := analyses.foldl (fun m analysis =>
      let lbl := fileLabel analysis.fileName
      analysis.functions.foldl (fun m2 p =>
        match mapGet m2 (uniqueKey p.1 lbl) with
        | some mergedFunc =>
          mapSet m2 (uniqueKey p.1 lbl)
            { mergedFunc with
              calls := p.2.calls.map (resolveCallee m2 lbl), calledBy := [] }
        | none => m2) m) merged.functions }

/-- Merge pass 3 (third loop): rebuild every `calledBy` from the rewritten
calls, locating callees by map key and tagging callers with their key. -/
def mergePass3 (merged : CodeAnalysis) : CodeAnalysis :=
  { merged with
    functions := foldCallers Prod.fst (callEdgesBy Prod.fst merged.functions)
      merged.functions }

/-- Function `mergeAnalyses`: passes 1–3 followed by a full significance
recomputation. -/
def mergeAnalyses (analyses : List CodeAnalysis) : CodeAnalysis :=
  calculateSignificance (mergePass3 (mergePass2 analyses (mergePass1 analyses)))

/-! ### Properties of the caller-rebuilding loop -/

/-- First entry with the given `sel`-identifier — the `find` / `get` both
source loops use to locate a callee. -/
def lookupBy (sel : String × FunctionNode → String)
    (m : List (String × FunctionNode)) (k : String) : Option (String × FunctionNode) :=
  m.find? (fun e => sel e == k)

/-- The two identifier choices are stable under a `calledBy` push. -/
def SelStable (sel : String × FunctionNode → String) : Prop :=
  ∀ (c : String) (e : String × FunctionNode), sel (pushCaller c e) = sel e

lemma selStable_name : SelStable (fun e => e.2.name) := by
  intro c e
  unfold pushCaller
  split <;> rfl

lemma selStable_fst : SelStable Prod.fst := by
  intro c e
  unfold pushCaller
  split <;> rfl

lemma pushCaller_fst (c : String) (e : String × FunctionNode) :
    (pushCaller c e).1 = e.1 := by
  unfold pushCaller
  split <;> rfl

lemma pushCaller_charac (c : String) (e : String × FunctionNode) :
    ∃ cb, pushCaller c e = (e.1, { e.2 with calledBy := cb })
      ∧ (∀ x, x ∈ cb ↔ x ∈ e.2.calledBy ∨ x = c)
      ∧ (e.2.calledBy.Nodup → cb.Nodup) := by
  unfold pushCaller
  split
  · rename_i hmem
    refine ⟨e.2.calledBy, ?_, ?_, fun h => h⟩
    · rfl
    · intro x
      constructor
      · exact Or.inl
      · rintro (hx | rfl)
        · exact hx
        · exact hmem
  · rename_i hmem
    refine ⟨e.2.calledBy ++ [c], rfl, ?_, ?_⟩
    · intro x
      simp
    · intro h
      simp [List.nodup_append, h, hmem]

lemma addCallerBy_map_sel {sel : String × FunctionNode → String} (hsel : SelStable sel)
    (m : List (String × FunctionNode)) (c n : String) :
    (addCallerBy sel m c n).map sel = m.map sel := by
  induction m with
  | nil => rfl
  | cons e rest ih =>
    unfold addCallerBy
    split
    · simp [hsel c e]
    · simp [ih]

lemma addCallerBy_map_fst (sel : String × FunctionNode → String)
    (m : List (String × FunctionNode)) (c n : String) :
    (addCallerBy sel m c n).map Prod.fst = m.map Prod.fst := by
  induction m with
  | nil => rfl
  | cons e rest ih =>
    unfold addCallerBy
    split
    · simp [pushCaller_fst]
    · simp [ih]

lemma addCallerBy_lookup_eq {sel : String × FunctionNode → String} (hsel : SelStable sel)
    {m : List (String × FunctionNode)} {n : String} {e : String × FunctionNode}
    (h : lookupBy sel m n = some e) (c : String) :
    lookupBy sel (addCallerBy sel m c n) n = some (pushCaller c e) := by
  induction m with
  | nil => simp [lookupBy] at h
  | cons e' rest ih =>
    by_cases hhead : sel e' = n
    · have he : e' = e := by
        unfold lookupBy at h
        rw [List.find?_cons_of_pos _ (by simp [hhead])] at h
        exact Option.some.inj h
      subst he
      unfold addCallerBy
      rw [if_pos (by simp [hhead])]
      unfold lookupBy
      rw [List.find?_cons_of_pos _ (by simp [hsel c e', hhead])]
    · unfold addCallerBy
      rw [if_neg (by simp [hhead])]
      unfold lookupBy at h ⊢
      rw [List.find?_cons_of_neg _ (by simp [hhead])] at h
      rw [List.find?_cons_of_neg _ (by simp [hhead])]
      exact ih h

lemma addCallerBy_lookup_ne {sel : String × FunctionNode → String} (hsel : SelStable sel)
    (m : List (String × FunctionNode)) (c : String) {k n : String} (hne : k ≠ n) :
    lookupBy sel (addCallerBy sel m c n) k = lookupBy sel m k := by
  induction m with
  | nil => rfl
  | cons e rest ih =>
    unfold addCallerBy
    by_cases hhead : sel e = n
    · rw [if_pos (by simp [hhead])]
      unfold lookupBy
      have h1 : ¬ (sel (pushCaller c e) == k) = true := by
        simp [hsel c e, hhead, Ne.symm hne]
      have h2 : ¬ (sel e == k) = true := by
        simp [hhead, Ne.symm hne]
      rw [List.find?_cons_of_neg (p := fun e => sel e == k) _ h1,
        List.find?_cons_of_neg (p := fun e => sel e == k) _ h2]
    · rw [if_neg (by simp [hhead])]
      unfold lookupBy
      by_cases hk : sel e = k
      · rw [List.find?_cons_of_pos _ (by simp [hk]), List.find?_cons_of_pos _ (by simp [hk])]
      · rw [List.find?_cons_of_neg _ (by simp [hk]), List.find?_cons_of_neg _ (by simp [hk])]
        exact ih

lemma addCallerBy_lookup_none {sel : String × FunctionNode → String}
    {m : List (String × FunctionNode)} {n : String}
    (h : lookupBy sel m n = none) (c : String) :
    addCallerBy sel m c n = m := by
  induction m with
  | nil => rfl
  | cons e rest ih =>
    unfold lookupBy at h
    by_cases hhead : sel e = n
    · rw [List.find?_cons_of_pos _ (by simp [hhead])] at h
      exact absurd h (by simp)
    · rw [List.find?_cons_of_neg _ (by simp [hhead])] at h
      unfold addCallerBy
      rw [if_neg (by simp [hhead])]
      rw [ih h]

lemma foldCallers_map_sel {sel : String × FunctionNode → String} (hsel : SelStable sel)
    (edges : List (String × String)) (m : List (String × FunctionNode)) :
    (foldCallers sel edges m).map sel = m.map sel := by
  induction edges generalizing m with
  | nil => rfl
  | cons e rest ih =>
    unfold foldCallers at ih ⊢
    simp only [List.foldl_cons]
    rw [ih, addCallerBy_map_sel hsel]

lemma foldCallers_map_fst (sel : String × FunctionNode → String)
    (edges : List (String × String)) (m : List (String × FunctionNode)) :
    (foldCallers sel edges m).map Prod.fst = m.map Prod.fst := by
  induction edges generalizing m with
  | nil => rfl
  | cons e rest ih =>
    unfold foldCallers at ih ⊢
    simp only [List.foldl_cons]
    rw [ih, addCallerBy_map_fst]

/-- Main characterization of the caller-rebuilding loop: the record found at
any identifier keeps its key, name and calls, and ends with exactly the
callers the edge list assigns to it (each at most once). -/
lemma foldCallers_lookup {sel : String × FunctionNode → String} (hsel : SelStable sel) :
    ∀ (edges : List (String × String)) (m : List (String × FunctionNode))
      (k : String) (f : String × FunctionNode),
      lookupBy sel m k = some f →
      ∃ cb, lookupBy sel (foldCallers sel edges m) k = some (f.1, { f.2 with calledBy := cb })
        ∧ (∀ x, x ∈ cb ↔ x ∈ f.2.calledBy ∨ (x, k) ∈ edges)
        ∧ (f.2.calledBy.Nodup → cb.Nodup) := by
  intro edges
  induction edges with
  | nil =>
    intro m k f h
    refine ⟨f.2.calledBy, ?_, by simp, fun hd => hd⟩
    unfold foldCallers
    simpa using h
  | cons edge rest ih =>
    intro m k f h
    unfold foldCallers
    simp only [List.foldl_cons]
    by_cases hk : edge.2 = k
    · subst hk
      have h1 : lookupBy sel (addCallerBy sel m edge.1 edge.2) edge.2
          = some (pushCaller edge.1 f) :=
        addCallerBy_lookup_eq hsel h edge.1
      obtain ⟨cb1, hpush, hmem1, hnd1⟩ := pushCaller_charac edge.1 f
      rw [hpush] at h1
      obtain ⟨cb, hlook, hmem, hnd⟩ := ih (addCallerBy sel m edge.1 edge.2) edge.2
        (f.1, { f.2 with calledBy := cb1 }) h1
      refine ⟨cb, ?_, ?_, ?_⟩
      · exact hlook
      · intro x
        constructor
        · intro hx
          rcases (hmem x).mp hx with hx1 | hx2
          · rcases (hmem1 x).mp hx1 with hx3 | rfl
            · exact Or.inl hx3
            · exact Or.inr (by simp)
          · exact Or.inr (List.mem_cons_of_mem _ hx2)
        · intro hx
          apply (hmem x).mpr
          rcases hx with hx1 | hx2
          · exact Or.inl ((hmem1 x).mpr (Or.inl hx1))
          · rcases List.mem_cons.mp hx2 with heq | hrest
            · refine Or.inl ((hmem1 x).mpr (Or.inr ?_))
              have := congrArg Prod.fst heq
              simpa using this
            · exact Or.inr hrest
      · intro hnodup
        exact hnd (hnd1 hnodup)
    · have h1 : lookupBy sel (addCallerBy sel m edge.1 edge.2) k = some f := by
        rw [addCallerBy_lookup_ne hsel m edge.1 (fun heq => hk heq.symm)]
        exact h
      obtain ⟨cb, hlook, hmem, hnd⟩ := ih (addCallerBy sel m edge.1 edge.2) k f h1
      refine ⟨cb, hlook, ?_, hnd⟩
      intro x
      rw [hmem x]
      constructor
      · rintro (hx | hx)
        · exact Or.inl hx
        · exact Or.inr (List.mem_cons_of_mem _ hx)
      · rintro (hx | hx)
        · exact Or.inl hx
        · rcases List.mem_cons.mp hx with heq | hrest
          · exact absurd (congrArg Prod.snd heq).symm hk
          · exact Or.inr hrest

lemma foldCallers_lookup_none {sel : String × FunctionNode → String} (hsel : SelStable sel) :
    ∀ (edges : List (String × String)) (m : List (String × FunctionNode)) (k : String),
      lookupBy sel m k = none → lookupBy sel (foldCallers sel edges m) k = none := by
  intro edges
  induction edges with
  | nil =>
    intro m k h
    simpa [foldCallers] using h
  | cons ed rest ih =>
    intro m k h
    unfold foldCallers
    simp only [List.foldl_cons]
    apply ih
    by_cases hk : ed.2 = k
    · rw [addCallerBy_lookup_none (hk ▸ h) ed.1]
      exact h
    · rw [addCallerBy_lookup_ne hsel m ed.1 (fun heq => hk heq.symm)]
      exact h

lemma lookupBy_of_mem {sel : String × FunctionNode → String}
    {m : List (String × FunctionNode)} (hnd : (m.map sel).Nodup)
    {e : String × FunctionNode} (hmem : e ∈ m) :
    lookupBy sel m (sel e) = some e := by
  induction m with
  | nil => simp at hmem
  | cons e' rest ih =>
    rcases List.mem_cons.mp hmem with rfl | htail
    · unfold lookupBy
      rw [List.find?_cons_of_pos _ (by simp)]
    · have hne : sel e' ≠ sel e := by
        intro heq
        have : sel e ∈ rest.map sel := List.mem_map_of_mem sel htail
        rw [← heq] at this
        exact (List.nodup_cons.mp (by simpa using hnd)).1 this
      unfold lookupBy
      rw [List.find?_cons_of_neg _ (by simp [hne])]
      exact ih (List.nodup_cons.mp (by simpa using hnd)).2 htail

lemma mem_callEdgesBy {sel : String × FunctionNode → String}
    {m : List (String × FunctionNode)} {x n : String} :
    (x, n) ∈ callEdgesBy sel m ↔ ∃ e ∈ m, sel e = x ∧ n ∈ e.2.calls := by
  unfold callEdgesBy
  simp only [List.mem_flatMap, List.mem_map, Prod.mk.injEq]
  constructor
  · rintro ⟨e, hmem, c, hc, hx, rfl⟩
    exact ⟨e, hmem, hx, hc⟩
  · rintro ⟨e, hmem, hx, hc⟩
    exact ⟨e, hmem, n, hc, hx, rfl⟩

/-- Master lemma: after the caller-rebuilding loop on a map with unique
`sel`-identifiers and empty initial `calledBy`, the callers of `B` are exactly
the identifiers of the records whose calls contain `B`'s identifier, without
duplicates. -/
lemma foldCallers_inverse {sel : String × FunctionNode → String} (hsel : SelStable sel)
    (m : List (String × FunctionNode))
    (hnd : (m.map sel).Nodup)
    (hinit : ∀ e ∈ m, e.2.calledBy = []) :
    ∀ eA ∈ foldCallers sel (callEdgesBy sel m) m,
      ∀ eB ∈ foldCallers sel (callEdgesBy sel m) m,
        (sel eA ∈ eB.2.calledBy ↔ sel eB ∈ eA.2.calls) ∧ eB.2.calledBy.Nodup := by
  intro eA hA eB hB
  set r := foldCallers sel (callEdgesBy sel m) m with hr
  have hndr : (r.map sel).Nodup := by
    rw [hr, foldCallers_map_sel hsel]
    exact hnd
  -- Relate any member of the result to its pre-state record.
  have hchar : ∀ e ∈ r, ∃ f, lookupBy sel m (sel e) = some f ∧ f ∈ m
      ∧ e.1 = f.1 ∧ e.2.calls = f.2.calls ∧ e.2.name = f.2.name
      ∧ (∀ x, x ∈ e.2.calledBy ↔ (x, sel e) ∈ callEdgesBy sel m)
      ∧ e.2.calledBy.Nodup := by
    intro e he
    have hlr : lookupBy sel r (sel e) = some e := lookupBy_of_mem hndr he
    have hsome : (lookupBy sel m (sel e)).isSome := by
      by_contra hno
      have hnone : lookupBy sel m (sel e) = none := by
        cases hh : lookupBy sel m (sel e)
        · rfl
        · rw [hh] at hno; simp at hno
      have : lookupBy sel r (sel e) = none :=
        foldCallers_lookup_none hsel (callEdgesBy sel m) m (sel e) hnone
      rw [this] at hlr
      exact Option.noConfusion hlr
    obtain ⟨f, hf⟩ := Option.isSome_iff_exists.mp hsome
    have hfm : f ∈ m := List.mem_of_find?_eq_some hf
    obtain ⟨cb, hlook, hmem, hndcb⟩ := foldCallers_lookup hsel (callEdgesBy sel m) m (sel e) f hf
    rw [← hr] at hlook
    rw [hlr] at hlook
    have he2 : e = (f.1, { f.2 with calledBy := cb }) := Option.some.inj hlook
    have hcb_eq : e.2.calledBy = cb := by rw [he2]
    refine ⟨f, hf, hfm, ?_, ?_, ?_, ?_, ?_⟩
    · rw [he2]
    · rw [he2]
    · rw [he2]
    · intro x
      rw [hcb_eq, hmem x, hinit f hfm]
      simp
    · rw [hcb_eq]
      exact hndcb (by rw [hinit f hfm]; exact List.nodup_nil)
  obtain ⟨fA, hfA, hfAm, hA1, hAcalls, hAname, hAcb, hAnd⟩ := hchar eA hA
  obtain ⟨fB, hfB, hfBm, hB1, hBcalls, hBname, hBcb, hBnd⟩ := hchar eB hB
  constructor
  · rw [hBcb (sel eA), mem_callEdgesBy]
    constructor
    · rintro ⟨e, hem, hesel, hecalls⟩
      -- e and fA share the sel-identifier, hence are equal
      have hselA : sel fA = sel eA := by
        have := List.find?_some hfA
        simpa using this
      have : e = fA := by
        have hinj := List.inj_on_of_nodup_map hnd
        exact hinj hem hfAm (by rw [hesel, hselA])
      rw [this] at hecalls
      rw [hAcalls]
      exact hecalls
    · intro hcall
      refine ⟨fA, hfAm, ?_, ?_⟩
      · have := List.find?_some hfA
        simpa using this
      · rw [← hAcalls]
        exact hcall
  · exact hBnd

/-! ### Association-list map lemmas -/

lemma mapGet_eq_lookup_fst (m : List (String × FunctionNode)) (k : String) :
    mapGet m k = (lookupBy Prod.fst m k).map Prod.snd := rfl

lemma mapSet_map_fst_of_mem {m : List (String × FunctionNode)} {k : String}
    (h : k ∈ m.map Prod.fst) (v : FunctionNode) :
    (mapSet m k v).map Prod.fst = m.map Prod.fst := by
  induction m with
  | nil => simp at h
  | cons e rest ih =>
    unfold mapSet
    by_cases hk : e.1 = k
    · rw [if_pos (by simp [hk])]
      simp [hk]
    · rw [if_neg (by simp [hk])]
      have : k ∈ rest.map Prod.fst := by
        rw [List.map_cons] at h
        rcases List.mem_cons.mp h with h' | h'
        · exact absurd h'.symm hk
        · exact h'
      simp [ih this]

lemma mapSet_map_fst_of_not_mem {m : List (String × FunctionNode)} {k : String}
    (h : k ∉ m.map Prod.fst) (v : FunctionNode) :
    (mapSet m k v).map Prod.fst = m.map Prod.fst ++ [k] := by
  induction m with
  | nil => rfl
  | cons e rest ih =>
    unfold mapSet
    have hk : e.1 ≠ k := by
      intro heq
      exact h (by simp [heq])
    rw [if_neg (by simp [hk])]
    have : k ∉ rest.map Prod.fst := fun hmem => h (by simp [hmem])
    simp [ih this]

lemma mapSet_keys_nodup {m : List (String × FunctionNode)} {k : String}
    (h : (m.map Prod.fst).Nodup) (v : FunctionNode) :
    ((mapSet m k v).map Prod.fst).Nodup := by
  by_cases hmem : k ∈ m.map Prod.fst
  · rw [mapSet_map_fst_of_mem hmem]
    exact h
  · rw [mapSet_map_fst_of_not_mem hmem]
    simp [List.nodup_append, h, hmem]

lemma mapGet_mapSet_self (m : List (String × FunctionNode)) (k : String) (v : FunctionNode) :
    mapGet (mapSet m k v) k = some v := by
  induction m with
  | nil => simp [mapSet, mapGet]
  | cons e rest ih =>
    unfold mapSet
    by_cases hk : e.1 = k
    · rw [if_pos (by simp [hk])]
      unfold mapGet
      rw [List.find?_cons_of_pos _ (by simp)]
      rfl
    · rw [if_neg (by simp [hk])]
      unfold mapGet at ih ⊢
      rw [List.find?_cons_of_neg _ (by simp [hk])]
      exact ih

lemma mapGet_mapSet_ne (m : List (String × FunctionNode)) {k' k : String} (hne : k' ≠ k)
    (v : FunctionNode) : mapGet (mapSet m k v) k' = mapGet m k' := by
  induction m with
  | nil => simp [mapSet, mapGet, Ne.symm hne]
  | cons e rest ih =>
    unfold mapSet
    by_cases hk : e.1 = k
    · rw [if_pos (by simp [hk])]
      unfold mapGet
      rw [List.find?_cons_of_neg _ (by simp [Ne.symm hne]),
        List.find?_cons_of_neg _ (by simp [hk, Ne.symm hne])]
    · rw [if_neg (by simp [hk])]
      unfold mapGet at ih ⊢
      by_cases hk' : e.1 = k'
      · rw [List.find?_cons_of_pos _ (by simp [hk']), List.find?_cons_of_pos _ (by simp [hk'])]
      · rw [List.find?_cons_of_neg _ (by simp [hk']), List.find?_cons_of_neg _ (by simp [hk'])]
        exact ih

lemma mapGet_isSome_iff (m : List (String × FunctionNode)) (k : String) :
    (mapGet m k).isSome ↔ k ∈ m.map Prod.fst := by
  unfold mapGet
  have hsome : (Option.map Prod.snd (m.find? (fun e => e.1 == k))).isSome
      = (m.find? (fun e => e.1 == k)).isSome := by
    cases m.find? (fun e => e.1 == k) <;> rfl
  rw [hsome, List.find?_isSome]
  constructor
  · rintro ⟨e, hmem, hk⟩
    have : e.1 = k := by simpa using hk
    exact this ▸ List.mem_map_of_mem Prod.fst hmem
  · intro hmem
    obtain ⟨e, hmem', hk⟩ := List.mem_map.mp hmem
    exact ⟨e, hmem', by simp [hk]⟩

lemma mapGet_of_mem {m : List (String × FunctionNode)}
    (hnd : (m.map Prod.fst).Nodup) {e : String × FunctionNode} (hmem : e ∈ m) :
    mapGet m e.1 = some e.2 := by
  rw [mapGet_eq_lookup_fst, lookupBy_of_mem hnd hmem]
  rfl

/-! ### Generic fold helpers -/

lemma foldl_preserve {α σ : Type _} {P : σ → Prop} {f : σ → α → σ}
    (h : ∀ s a, P s → P (f s a)) :
    ∀ (l : List α) (s : σ), P s → P (l.foldl f s) := by
  intro l
  induction l with
  | nil => intro s hs; exact hs
  | cons a rest ih =>
    intro s hs
    exact ih (f s a) (h s a hs)

lemma foldl_flatMap {α β σ : Type _} (g : α → List β) (f : σ → β → σ) :
    ∀ (l : List α) (s : σ),
      (l.flatMap g).foldl f s = l.foldl (fun s a => (g a).foldl f s) s := by
  intro l
  induction l with
  | nil => intro s; rfl
  | cons a rest ih =>
    intro s
    simp only [List.flatMap_cons, List.foldl_append, List.foldl_cons]
    exact ih _

/-! ### Flattened views of the merge passes -/

/-- The `(key, record)` insertions merge pass 1 performs, in order. -/
def pass1Items (analyses : List CodeAnalysis) : List (String × FunctionNode) :=
  analyses.flatMap (fun a => a.functions.map (fun p =>
    (uniqueKey p.1 (fileLabel a.fileName),
     { p.2 with name := uniqueKey p.1 (fileLabel a.fileName), displayName := p.1,
                fileName := some a.fileName })))

/-- All unique keys the merge derives from its input, in iteration order. -/
def ukList (analyses : List CodeAnalysis) : List String :=
  analyses.flatMap (fun a => a.functions.map (fun p => uniqueKey p.1 (fileLabel a.fileName)))

/-- The `(label, (name, record))` items merge pass 2 processes, in order. -/
def pass2Pairs (analyses : List CodeAnalysis) : List (String × (String × FunctionNode)) :=
  analyses.flatMap (fun a => a.functions.map (fun p => (fileLabel a.fileName, p)))

/-- One step of merge pass 2 on the flattened item list. -/
def pass2Step (m : List (String × FunctionNode))
    (q : String × (String × FunctionNode)) : List (String × FunctionNode) :=
  match mapGet m (uniqueKey q.2.1 q.1) with
  | some mergedFunc =>
    mapSet m (uniqueKey q.2.1 q.1)
      { mergedFunc with calls := q.2.2.calls.map (resolveCallee m q.1), calledBy := [] }
  | none => m

lemma mergePass1_fold_functions :
    ∀ (l : List CodeAnalysis) (s : CodeAnalysis),
      (l.foldl mergePass1Step s).functions
        = l.foldl (fun m a =>
            ((a.functions.map (fun p =>
              (uniqueKey p.1 (fileLabel a.fileName),
               { p.2 with name := uniqueKey p.1 (fileLabel a.fileName), displayName := p.1,
                          fileName := some a.fileName }))).foldl
              (fun m q => mapSet m q.1 q.2) m)) s.functions := by
  intro l
  induction l with
  | nil => intro s; rfl
  | cons a rest ih =>
    intro s
    simp only [List.foldl_cons]
    rw [ih]
    congr 1
    rw [List.foldl_map]
    rfl

lemma mergePass1_functions (analyses : List CodeAnalysis) :
    (mergePass1 analyses).functions
      = (pass1Items analyses).foldl (fun m q => mapSet m q.1 q.2) [] := by
  unfold mergePass1 pass1Items
  rw [foldl_flatMap, mergePass1_fold_functions]
  rfl

lemma ukList_eq_pass1Items_keys (analyses : List CodeAnalysis) :
    (pass1Items analyses).map Prod.fst = ukList analyses := by
  unfold pass1Items ukList
  rw [List.map_flatMap]
  congr 1
  funext a
  rw [List.map_map]
  rfl

lemma foldl_mapSet_keys_sub :
    ∀ (items : List (String × FunctionNode)) (m : List (String × FunctionNode)) (k : String),
      k ∈ ((items.foldl (fun m q => mapSet m q.1 q.2) m).map Prod.fst) →
      k ∈ m.map Prod.fst ∨ k ∈ items.map Prod.fst := by
  intro items
  induction items with
  | nil => intro m k h; exact Or.inl h
  | cons q rest ih =>
    intro m k h
    simp only [List.foldl_cons] at h
    rcases ih (mapSet m q.1 q.2) k h with h' | h'
    · by_cases hmem : q.1 ∈ m.map Prod.fst
      · rw [mapSet_map_fst_of_mem hmem] at h'
        exact Or.inl h'
      · rw [mapSet_map_fst_of_not_mem hmem] at h'
        rcases List.mem_append.mp h' with h'' | h''
        · exact Or.inl h''
        · right
          simp only [List.map_cons, List.mem_cons]
          left
          simpa using h''
    · right
      simp only [List.map_cons, List.mem_cons]
      exact Or.inr h'

lemma mergePass1_keys_nodup (analyses : List CodeAnalysis) :
    (((mergePass1 analyses).functions).map Prod.fst).Nodup := by
  rw [mergePass1_functions]
  have := foldl_preserve
    (P := fun m : List (String × FunctionNode) => (m.map Prod.fst).Nodup)
    (f := fun m q => mapSet m q.1 q.2)
    (fun s q hs => mapSet_keys_nodup hs q.2)
    (pass1Items analyses) [] (by simp)
  exact this

lemma mergePass1_keys_sub (analyses : List CodeAnalysis) :
    ∀ k ∈ ((mergePass1 analyses).functions).map Prod.fst, k ∈ ukList analyses := by
  intro k hk
  rw [mergePass1_functions] at hk
  rcases foldl_mapSet_keys_sub (pass1Items analyses) [] k hk with h | h
  · simp at h
  · rw [ukList_eq_pass1Items_keys] at h
    exact h

lemma mergePass2_functions (analyses : List CodeAnalysis) (merged : CodeAnalysis) :
    (mergePass2 analyses merged).functions
      = (pass2Pairs analyses).foldl pass2Step merged.functions := by
  unfold mergePass2 pass2Pairs
  rw [foldl_flatMap]
  simp only []
  congr 1
  funext m a
  rw [List.foldl_map]
  rfl

lemma pass2Step_keys (m : List (String × FunctionNode)) (q : String × (String × FunctionNode)) :
    (pass2Step m q).map Prod.fst = m.map Prod.fst := by
  unfold pass2Step
  cases hget : mapGet m (uniqueKey q.2.1 q.1) with
  | none => rfl
  | some mergedFunc =>
    have : uniqueKey q.2.1 q.1 ∈ m.map Prod.fst := by
      rw [← mapGet_isSome_iff, hget]
      rfl
    exact mapSet_map_fst_of_mem this _

lemma mergePass2_keys (analyses : List CodeAnalysis) (merged : CodeAnalysis) :
    ((mergePass2 analyses merged).functions).map Prod.fst
      = (merged.functions).map Prod.fst := by
  rw [mergePass2_functions]
  have := foldl_preserve
    (P := fun m : List (String × FunctionNode) =>
      m.map Prod.fst = merged.functions.map Prod.fst)
    (f := pass2Step)
    (fun s q hs => by
      show (pass2Step s q).map Prod.fst = merged.functions.map Prod.fst
      rw [pass2Step_keys]
      exact hs)
    (pass2Pairs analyses) merged.functions rfl
  exact this

/-- After the flattened pass-2 fold, any record found at a processed key has
an empty `calledBy`. -/
lemma pass2Steps_calledBy :
    ∀ (L : List (String × (String × FunctionNode))) (m : List (String × FunctionNode))
      (k : String) (f : FunctionNode),
      mapGet (L.foldl pass2Step m) k = some f →
      (k ∈ L.map (fun q => uniqueKey q.2.1 q.1)
        ∨ ∀ g, mapGet m k = some g → g.calledBy = []) →
      f.calledBy = [] := by
  intro L
  induction L with
  | nil =>
    intro m k f hget hcase
    rcases hcase with h | h
    · simp at h
    · exact h f hget
  | cons q rest ih =>
    intro m k f hget hcase
    simp only [List.foldl_cons] at hget
    apply ih (pass2Step m q) k f hget
    by_cases hk : k = uniqueKey q.2.1 q.1
    · right
      intro g hg
      unfold pass2Step at hg
      cases hget0 : mapGet m (uniqueKey q.2.1 q.1) with
      | none =>
        rw [hget0] at hg
        rw [hk, hget0] at hg
        exact Option.noConfusion hg
      | some mf =>
        rw [hget0] at hg
        rw [hk] at hg
        rw [mapGet_mapSet_self] at hg
        have := Option.some.inj hg
        rw [← this]
    · rcases hcase with h | h
      · rw [List.map_cons] at h
        rcases List.mem_cons.mp h with h' | h'
        · exact absurd h' hk
        · left; exact h'
      · right
        intro g hg
        apply h g
        unfold pass2Step at hg
        cases hget0 : mapGet m (uniqueKey q.2.1 q.1) with
        | none =>
          rw [hget0] at hg
          exact hg
        | some mf =>
          rw [hget0] at hg
          rw [mapGet_mapSet_ne _ hk] at hg
          exact hg

/-- Every record of the pass-2 output has an empty `calledBy`: pass 1 only
creates keys that pass 2 later processes, and each processing clears the
record's callers. -/
lemma mergePass2_calledBy_empty (analyses : List CodeAnalysis) :
    ∀ e ∈ (mergePass2 analyses (mergePass1 analyses)).functions, e.2.calledBy = [] := by
  intro e hmem
  have hkeys : ((mergePass2 analyses (mergePass1 analyses)).functions.map Prod.fst).Nodup := by
    rw [mergePass2_keys]
    exact mergePass1_keys_nodup analyses
  have hget : mapGet (mergePass2 analyses (mergePass1 analyses)).functions e.1 = some e.2 :=
    mapGet_of_mem hkeys hmem
  rw [mergePass2_functions] at hget
  apply pass2Steps_calledBy (pass2Pairs analyses) (mergePass1 analyses).functions e.1 e.2 hget
  left
  have hk : e.1 ∈ ((mergePass2 analyses (mergePass1 analyses)).functions).map Prod.fst :=
    List.mem_map_of_mem Prod.fst hmem
  rw [mergePass2_keys] at hk
  have := mergePass1_keys_sub analyses e.1 hk
  unfold ukList at this
  unfold pass2Pairs
  rw [List.map_flatMap]
  simpa [List.map_map, Function.comp] using this

/-! ### Keys and record shape through pass 3 and rescoring -/

lemma mergePass3_keys (merged : CodeAnalysis) :
    ((mergePass3 merged).functions).map Prod.fst = (merged.functions).map Prod.fst := by
  unfold mergePass3
  exact foldCallers_map_fst _ _ _

lemma calculateSignificance_mem (a : CodeAnalysis) :
    ∀ e ∈ (calculateSignificance a).functions, ∃ e0 ∈ a.functions,
      e.1 = e0.1 ∧ e.2.calls = e0.2.calls ∧ e.2.calledBy = e0.2.calledBy := by
  intro e he
  simp only [calculateSignificance] at he
  by_cases h : (a.functions.map Prod.snd).length = 0
  · rw [if_pos h] at he
    exact ⟨e, he, rfl, rfl, rfl⟩
  · rw [if_neg h] at he
    obtain ⟨e0, hmem, heq⟩ := List.mem_map.mp he
    exact ⟨e0, hmem, by rw [← heq], by rw [← heq], by rw [← heq]⟩

/-- C1: in every resolved graph — a single-file analysis after
`buildCalledByRelationships` (starting from freshly created records with empty
`calledBy` and `Map`-unique names), or a workspace graph after
`mergeAnalyses` — `B.calledBy` contains `A`'s key iff `A`'s resolved calls
contain `B`'s key, and the rebuilt caller lists hold no duplicates. -/
theorem C1_callers_iff_calls :
    (∀ a : CodeAnalysis,
      ((a.functions.map (fun e => e.2.name)).Nodup) →
      (∀ e ∈ a.functions, e.2.calledBy = []) →
      ∀ eA ∈ (buildCalledByRelationships a).functions,
        ∀ eB ∈ (buildCalledByRelationships a).functions,
          (eA.2.name ∈ eB.2.calledBy ↔ eB.2.name ∈ eA.2.calls) ∧ eB.2.calledBy.Nodup)
  ∧ (∀ analyses : List CodeAnalysis,
      ∀ eA ∈ (mergeAnalyses analyses).functions,
        ∀ eB ∈ (mergeAnalyses analyses).functions,
          (eA.1 ∈ eB.2.calledBy ↔ eB.1 ∈ eA.2.calls) ∧ eB.2.calledBy.Nodup) := by
  constructor
  · intro a hnd hinit eA hA eB hB
    exact foldCallers_inverse selStable_name a.functions hnd hinit eA hA eB hB
  · intro analyses eA hA eB hB
    have hkeys2 : ((mergePass2 analyses (mergePass1 analyses)).functions.map Prod.fst).Nodup := by
      rw [mergePass2_keys]
      exact mergePass1_keys_nodup analyses
    have hcb2 := mergePass2_calledBy_empty analyses
    obtain ⟨eA3, hA3, hA1, hAcalls, hAcb⟩ :=
      calculateSignificance_mem (mergePass3 (mergePass2 analyses (mergePass1 analyses))) eA hA
    obtain ⟨eB3, hB3, hB1, hBcalls, hBcb⟩ :=
      calculateSignificance_mem (mergePass3 (mergePass2 analyses (mergePass1 analyses))) eB hB
    have master := foldCallers_inverse selStable_fst
      (mergePass2 analyses (mergePass1 analyses)).functions hkeys2 hcb2 eA3 hA3 eB3 hB3
    constructor
    · rw [hA1, hBcb, hAcalls, hB1]
      exact master.1
    · rw [hBcb]
      exact master.2

/-- The two-function sample before caller rebuilding: `calledBy` still empty. -/
def sampleHelpPre : FunctionNode := { sampleHelp with calledBy := [] }

/-- The sample analysis as freshly extracted (before `buildCalledByRelationships`). -/
def samplePreAnalysis : CodeAnalysis :=
  { sampleAnalysis with functions := [("main", sampleMain), ("help", sampleHelpPre)] }

/-- Witness for C1 on the concrete sample: `main` calls `help`, so after the
rebuild `help.calledBy = ["main"]` and the inverse relation holds at the pair
`(main, help)`. -/
theorem C1_callers_iff_calls_witness :
    (sampleMain.name ∈ sampleHelp.calledBy ↔ sampleHelp.name ∈ sampleMain.calls)
      ∧ sampleHelp.calledBy.Nodup :=
  C1_callers_iff_calls.1 samplePreAnalysis (by decide) (by decide)
    ("main", sampleMain) (by decide) ("help", sampleHelp) (by decide)

/-! ### Key uniqueness and counting (merge) -/

lemma append_sep_inj {α : Type _} {a : α} :
    ∀ {xs ys us vs : List α}, a ∉ xs → a ∉ ys →
      xs ++ a :: us = ys ++ a :: vs → xs = ys ∧ us = vs := by
  intro xs
  induction xs with
  | nil =>
    intro ys us vs _ hy h
    cases ys with
    | nil =>
      simp only [List.nil_append] at h
      exact ⟨rfl, (List.cons.injEq _ _ _ _ ▸ h).2⟩
    | cons y ys' =>
      simp only [List.nil_append, List.cons_append] at h
      have : a = y := (List.cons.injEq _ _ _ _ ▸ h).1
      exact absurd (this ▸ List.mem_cons_self y ys') hy
  | cons x xs' ih =>
    intro ys us vs hx hy h
    cases ys with
    | nil =>
      simp only [List.cons_append, List.nil_append] at h
      have : x = a := (List.cons.injEq _ _ _ _ ▸ h).1
      exact absurd (this ▸ List.mem_cons_self x xs') hx
    | cons y ys' =>
      simp only [List.cons_append] at h
      have h1 := (List.cons.injEq _ _ _ _ ▸ h).1
      have h2 := (List.cons.injEq _ _ _ _ ▸ h).2
      have hx' : a ∉ xs' := fun hm => hx (List.mem_cons_of_mem x hm)
      have hy' : a ∉ ys' := fun hm => hy (List.mem_cons_of_mem y hm)
      obtain ⟨hxy, huv⟩ := ih hx' hy' h2
      exact ⟨by rw [h1, hxy], huv⟩

lemma uniqueKey_data (n l : String) :
    (uniqueKey n l).data = n.data ++ ':' :: ':' :: l.data := by
  unfold uniqueKey
  simp [String.data_append]

lemma uniqueKey_inj {n1 l1 n2 l2 : String}
    (h1 : ':' ∉ n1.data) (h2 : ':' ∉ n2.data)
    (h : uniqueKey n1 l1 = uniqueKey n2 l2) : n1 = n2 ∧ l1 = l2 := by
  have hd : n1.data ++ ':' :: (':' :: l1.data) = n2.data ++ ':' :: (':' :: l2.data) := by
    have := congrArg String.data h
    rwa [uniqueKey_data, uniqueKey_data] at this
  obtain ⟨hn, hl⟩ := append_sep_inj h1 h2 hd
  refine ⟨?_, ?_⟩
  · cases n1; cases n2
    exact congrArg String.mk hn
  · have hld : l1.data = l2.data := (List.cons.injEq _ _ _ _ ▸ hl).2
    cases l1; cases l2
    exact congrArg String.mk hld

/-- The `(name, fileLabel)` pairs the merge derives its keys from. -/
def nameLabelPairs (analyses : List CodeAnalysis) : List (String × String) :=
  analyses.flatMap (fun a => a.functions.map (fun p => (p.1, fileLabel a.fileName)))

lemma ukList_eq_pairs_map (analyses : List CodeAnalysis) :
    ukList analyses = (nameLabelPairs analyses).map (fun q => uniqueKey q.1 q.2) := by
  unfold ukList nameLabelPairs
  rw [List.map_flatMap]
  congr 1
  funext a
  rw [List.map_map]
  rfl

lemma nameLabelPairs_map_fst (analyses : List CodeAnalysis) :
    (nameLabelPairs analyses).map Prod.fst
      = analyses.flatMap (fun a => a.functions.map Prod.fst) := by
  unfold nameLabelPairs
  rw [List.map_flatMap]
  congr 1
  funext a
  rw [List.map_map]
  rfl

lemma ukList_nodup (analyses : List CodeAnalysis)
    (hnames : (analyses.flatMap (fun a => a.functions.map Prod.fst)).Nodup)
    (hcolon : ∀ a ∈ analyses, ∀ p ∈ a.functions, ':' ∉ p.1.data) :
    (ukList analyses).Nodup := by
  rw [ukList_eq_pairs_map]
  have hpairs_fst : ((nameLabelPairs analyses).map Prod.fst).Nodup := by
    rw [nameLabelPairs_map_fst]
    exact hnames
  have hpairs : (nameLabelPairs analyses).Nodup := hpairs_fst.of_map
  have hcolon' : ∀ q ∈ nameLabelPairs analyses, ':' ∉ q.1.data := by
    intro q hq
    unfold nameLabelPairs at hq
    obtain ⟨a, ha, hq'⟩ := List.mem_flatMap.mp hq
    obtain ⟨p, hp, heq⟩ := List.mem_map.mp hq'
    rw [← heq]
    exact hcolon a ha p hp
  apply List.Nodup.map_on ?_ hpairs
  intro q hq q' hq' heq
  obtain ⟨hn, hl⟩ := uniqueKey_inj (hcolon' q hq) (hcolon' q' hq') heq
  have := List.inj_on_of_nodup_map hpairs_fst hq hq' hn
  exact this

lemma foldl_mapSet_keys_fresh :
    ∀ (items : List (String × FunctionNode)) (m : List (String × FunctionNode)),
      ((m.map Prod.fst) ++ items.map Prod.fst).Nodup →
      ((items.foldl (fun m q => mapSet m q.1 q.2) m).map Prod.fst)
        = m.map Prod.fst ++ items.map Prod.fst := by
  intro items
  induction items with
  | nil => intro m _; simp
  | cons q rest ih =>
    intro m hnd
    simp only [List.foldl_cons]
    have hq : q.1 ∉ m.map Prod.fst := by
      intro hmem
      rw [List.map_cons] at hnd
      have hdisj := (List.nodup_append.mp hnd).2.2
      exact hdisj hmem (List.mem_cons_self _ _)
    rw [ih (mapSet m q.1 q.2) ?_]
    · rw [mapSet_map_fst_of_not_mem hq]
      simp
    · rw [mapSet_map_fst_of_not_mem hq]
      rw [List.map_cons] at hnd
      have : m.map Prod.fst ++ q.1 :: rest.map Prod.fst
          = (m.map Prod.fst ++ [q.1]) ++ rest.map Prod.fst := by simp
      rw [this] at hnd
      exact hnd

lemma calculateSignificance_keys (a : CodeAnalysis) :
    ((calculateSignificance a).functions).map Prod.fst = (a.functions).map Prod.fst := by
  simp only [calculateSignificance]
  split
  · rfl
  · rw [List.map_map]
    rfl

lemma mergeAnalyses_keys (analyses : List CodeAnalysis) :
    ((mergeAnalyses analyses).functions).map Prod.fst
      = ((mergePass1 analyses).functions).map Prod.fst := by
  unfold mergeAnalyses
  rw [calculateSignificance_keys, mergePass3_keys, mergePass2_keys]

lemma mergePass1_keys_of_fresh (analyses : List CodeAnalysis)
    (hnd : (ukList analyses).Nodup) :
    ((mergePass1 analyses).functions).map Prod.fst = ukList analyses := by
  rw [mergePass1_functions]
  have := foldl_mapSet_keys_fresh (pass1Items analyses) []
    (by rw [ukList_eq_pass1Items_keys]; simpa using hnd)
  rw [this]
  rw [ukList_eq_pass1Items_keys]
  simp

lemma ukList_length :
    ∀ (l : List CodeAnalysis) (M : Nat), (∀ a ∈ l, a.functions.length = M) →
      (ukList l).length = l.length * M := by
  intro l
  induction l with
  | nil => intro M _; simp [ukList]
  | cons a rest ih =>
    intro M hM
    unfold ukList
    simp only [List.flatMap_cons, List.length_append, List.length_map]
    rw [hM a (List.mem_cons_self _ _)]
    have := ih M (fun b hb => hM b (List.mem_cons_of_mem a hb))
    unfold ukList at this
    rw [this]
    simp only [List.length_cons]
    ring

/-- C6: merging K single-file analyses, of M functions each, whose function
names are pairwise disjoint across files (and, as for any well-formed
identifiers, free of the `':'` used by the key encoding) yields exactly K·M
entries with pairwise distinct keys. -/
theorem C6_merge_key_count (analyses : List CodeAnalysis) (K M : Nat)
    (hK : analyses.length = K)
    (hM : ∀ a ∈ analyses, a.functions.length = M)
    (hnames : (analyses.flatMap (fun a => a.functions.map Prod.fst)).Nodup)
    (hcolon : ∀ a ∈ analyses, ∀ p ∈ a.functions, ':' ∉ p.1.data) :
    (mergeAnalyses analyses).functions.length = K * M
      ∧ (((mergeAnalyses analyses).functions).map Prod.fst).Nodup := by
  have hukn := ukList_nodup analyses hnames hcolon
  have hkeys : ((mergeAnalyses analyses).functions).map Prod.fst = ukList analyses := by
    rw [mergeAnalyses_keys, mergePass1_keys_of_fresh analyses hukn]
  constructor
  · have hlen : ((mergeAnalyses analyses).functions).length = (ukList analyses).length := by
      rw [← hkeys, List.length_map]
    rw [hlen, ukList_length analyses M hM, hK]
  · rw [hkeys]
    exact hukn

/-- Witness inputs for C6: two one-function files with distinct names. -/
def sampleAnalysisB : CodeAnalysis :=
  { fileName := "lib/b.ts", language := "typescript",
    functions := [("load", { name := "load", displayName := "load", startLine := 0, endLine := 2,
                             calls := [], calledBy := [], params := [], complexity := "",
                             fileName := some "lib/b.ts", significance := none })],
    imports := [], exports := [] }

/-- Witness inputs for C6: second one-function file. -/
def sampleAnalysisC : CodeAnalysis :=
  { fileName := "lib/c.ts", language := "typescript",
    functions := [("save", { name := "save", displayName := "save", startLine := 0, endLine := 2,
                             calls := [], calledBy := [], params := [], complexity := "",
                             fileName := some "lib/c.ts", significance := none })],
    imports := [], exports := [] }

/-- Witness for C6: merging 2 disjoint single-function files yields 2 nodes
with distinct keys. -/
theorem C6_merge_key_count_witness :
    (mergeAnalyses [sampleAnalysisB, sampleAnalysisC]).functions.length = 2 * 1
      ∧ (((mergeAnalyses [sampleAnalysisB, sampleAnalysisC]).functions).map Prod.fst).Nodup :=
  C6_merge_key_count [sampleAnalysisB, sampleAnalysisC] 2 1
    (by decide) (by decide) (by decide) (by decide)

/-! ### Name/key agreement and exports through the merge -/

lemma mapSet_mem_sub {m : List (String × FunctionNode)} {k : String} {v : FunctionNode} :
    ∀ {e}, e ∈ mapSet m k v → e ∈ m ∨ e = (k, v) := by
  induction m with
  | nil =>
    intro e he
    simp only [mapSet] at he
    exact Or.inr (by simpa using he)
  | cons e' rest ih =>
    intro e he
    unfold mapSet at he
    by_cases hk : e'.1 = k
    · rw [if_pos (by simp [hk])] at he
      rcases List.mem_cons.mp he with rfl | htail
      · exact Or.inr rfl
      · exact Or.inl (List.mem_cons_of_mem _ htail)
    · rw [if_neg (by simp [hk])] at he
      rcases List.mem_cons.mp he with rfl | htail
      · exact Or.inl (List.mem_cons_self _ _)
      · rcases ih htail with h | h
        · exact Or.inl (List.mem_cons_of_mem _ h)
        · exact Or.inr h

lemma mapGet_mem {m : List (String × FunctionNode)} {k : String} {f : FunctionNode}
    (h : mapGet m k = some f) : (k, f) ∈ m := by
  unfold mapGet at h
  cases hfind : m.find? (fun e => e.1 == k) with
  | none => rw [hfind] at h; exact Option.noConfusion h
  | some e0 =>
    rw [hfind] at h
    have hk : e0.1 = k := by simpa using List.find?_some hfind
    have hf : e0.2 = f := Option.some.inj h
    have : (k, f) = e0 := by
      cases e0
      simp only at hk hf
      rw [hk, hf]
    rw [this]
    exact List.mem_of_find?_eq_some hfind

lemma foldl_preserve_mem {α σ : Type _} {P : σ → Prop} {f : σ → α → σ} :
    ∀ (l : List α) (s : σ), (∀ s a, a ∈ l → P s → P (f s a)) → P s → P (l.foldl f s) := by
  intro l
  induction l with
  | nil => intro s _ hs; exact hs
  | cons a rest ih =>
    intro s hstep hs
    exact ih (f s a) (fun s' b hb => hstep s' b (List.mem_cons_of_mem a hb))
      (hstep s a (List.mem_cons_self _ _) hs)

/-- Every record of the merged map carries its own key in its `name` field. -/
def NameEqKey (m : List (String × FunctionNode)) : Prop := ∀ e ∈ m, e.2.name = e.1

lemma nameEqKey_mapSet {m : List (String × FunctionNode)} {k : String} {v : FunctionNode}
    (hm : NameEqKey m) (hv : v.name = k) : NameEqKey (mapSet m k v) := by
  intro e he
  rcases mapSet_mem_sub he with h | rfl
  · exact hm e h
  · exact hv

lemma nameEqKey_pass1 (analyses : List CodeAnalysis) :
    NameEqKey (mergePass1 analyses).functions := by
  rw [mergePass1_functions]
  apply foldl_preserve_mem (pass1Items analyses) []
    (fun s q hq hs => nameEqKey_mapSet hs ?_)
  · intro e he; simp at he
  · unfold pass1Items at hq
    obtain ⟨a, _, hq'⟩ := List.mem_flatMap.mp hq
    obtain ⟨p, _, heq⟩ := List.mem_map.mp hq'
    rw [← heq]

lemma nameEqKey_pass2Step {m : List (String × FunctionNode)}
    (hm : NameEqKey m) (q : String × (String × FunctionNode)) :
    NameEqKey (pass2Step m q) := by
  unfold pass2Step
  cases hget : mapGet m (uniqueKey q.2.1 q.1) with
  | none => exact hm
  | some mf =>
    apply nameEqKey_mapSet hm
    have := hm _ (mapGet_mem hget)
    exact this

lemma nameEqKey_addCallerBy {sel : String × FunctionNode → String}
    {m : List (String × FunctionNode)} (hm : NameEqKey m) (c n : String) :
    NameEqKey (addCallerBy sel m c n) := by
  induction m with
  | nil => intro e he; simp [addCallerBy] at he
  | cons e' rest ih =>
    intro e he
    unfold addCallerBy at he
    have hm' : NameEqKey rest := fun x hx => hm x (List.mem_cons_of_mem e' hx)
    by_cases hk : sel e' == n
    · rw [if_pos hk] at he
      rcases List.mem_cons.mp he with rfl | htail
      · have : (pushCaller c e').2.name = (pushCaller c e').1 := by
          unfold pushCaller
          split
          · exact hm e' (List.mem_cons_self _ _)
          · exact hm e' (List.mem_cons_self _ _)
        exact this
      · exact hm' e htail
    · rw [if_neg hk] at he
      rcases List.mem_cons.mp he with rfl | htail
      · exact hm e (List.mem_cons_self _ _)
      · exact ih hm' e htail

lemma nameEqKey_calcSig {a : CodeAnalysis} (h : NameEqKey a.functions) :
    NameEqKey (calculateSignificance a).functions := by
  intro e he
  simp only [calculateSignificance] at he
  split at he
  · exact h e he
  · obtain ⟨x, hx, hxe⟩ := List.mem_map.mp he
    rw [← hxe]
    exact h x hx

lemma nameEqKey_mergeAnalyses (analyses : List CodeAnalysis) :
    NameEqKey (mergeAnalyses analyses).functions := by
  have h1 := nameEqKey_pass1 analyses
  have h2 : NameEqKey (mergePass2 analyses (mergePass1 analyses)).functions := by
    rw [mergePass2_functions]
    exact foldl_preserve (P := NameEqKey) (f := pass2Step)
      (fun s q hs => nameEqKey_pass2Step hs q) (pass2Pairs analyses) _ h1
  have h3 : NameEqKey (mergePass3 (mergePass2 analyses (mergePass1 analyses))).functions := by
    show NameEqKey (foldCallers Prod.fst
      (callEdgesBy Prod.fst (mergePass2 analyses (mergePass1 analyses)).functions)
      (mergePass2 analyses (mergePass1 analyses)).functions)
    unfold foldCallers
    exact foldl_preserve (P := NameEqKey)
      (f := fun acc (e : String × String) => addCallerBy Prod.fst acc e.1 e.2)
      (fun s (e : String × String) hs => nameEqKey_addCallerBy hs e.1 e.2) _ _ h2
  exact nameEqKey_calcSig h3

lemma mergePass1_fold_exports :
    ∀ (l : List CodeAnalysis) (s : CodeAnalysis),
      (l.foldl mergePass1Step s).exports = s.exports ++ l.flatMap (fun a => a.exports) := by
  intro l
  induction l with
  | nil => intro s; simp
  | cons a rest ih =>
    intro s
    simp only [List.foldl_cons, List.flatMap_cons]
    rw [ih]
    simp [mergePass1Step]

lemma mergeAnalyses_exports (analyses : List CodeAnalysis) :
    (mergeAnalyses analyses).exports = analyses.flatMap (fun a => a.exports) := by
  have h4 : ∀ b : CodeAnalysis, (calculateSignificance b).exports = b.exports := by
    intro b
    simp only [calculateSignificance]
    split <;> rfl
  unfold mergeAnalyses
  rw [h4]
  have h3 : (mergePass3 (mergePass2 analyses (mergePass1 analyses))).exports
      = (mergePass2 analyses (mergePass1 analyses)).exports := rfl
  have h2 : (mergePass2 analyses (mergePass1 analyses)).exports
      = (mergePass1 analyses).exports := rfl
  rw [h3, h2]
  unfold mergePass1
  rw [mergePass1_fold_exports]
  rfl

/-- C10: in a merged, rescored workspace graph whose export entries are free
of the substring `"::"`, the export-membership test of the significance
scorer is false for every function: each merged record's `name` is its key
`localName::fileLabel` (so it contains `"::"`), while the merged export list
holds only the concatenated bare local names. -/
theorem C10_merged_export_test_false (analyses : List CodeAnalysis)
    (h : ∀ s ∈ (mergeAnalyses analyses).exports, ¬ ([':', ':'] <:+: s.data)) :
    ∀ e ∈ (mergeAnalyses analyses).functions,
      ([':', ':'] <:+: e.2.name.data) ∧ e.2.name ∉ (mergeAnalyses analyses).exports := by
  intro e he
  have hname : e.2.name = e.1 := nameEqKey_mergeAnalyses analyses e he
  have hk : e.1 ∈ ((mergeAnalyses analyses).functions).map Prod.fst :=
    List.mem_map_of_mem Prod.fst he
  rw [mergeAnalyses_keys] at hk
  have huk := mergePass1_keys_sub analyses e.1 hk
  unfold ukList at huk
  obtain ⟨a, _, hk'⟩ := List.mem_flatMap.mp huk
  obtain ⟨p, _, heq⟩ := List.mem_map.mp hk'
  have hss : [':', ':'] <:+: e.2.name.data := by
    rw [hname, ← heq, uniqueKey_data]
    exact ⟨p.1.data, (fileLabel a.fileName).data, by simp⟩
  refine ⟨hss, ?_⟩
  intro hmem
  exact h e.2.name hmem hss

/-- The merged record of `main` in the two-file sample merge. -/
def mergedMainEntry : String × FunctionNode :=
  ("main::t.ts",
   { name := "main::t.ts", displayName := "main", startLine := 0, endLine := 3,
     calls := ["help::t.ts"], calledBy := [], params := [], complexity := "",
     fileName := some "t.ts", significance := some 90 })

/-- Witness for C10: merging the sample two files (exports `["main"]`) leaves
the merged `main` record's name containing `"::"` and outside the export
list. -/
theorem C10_merged_export_test_false_witness :
    ([':', ':'] <:+: mergedMainEntry.2.name.data)
      ∧ mergedMainEntry.2.name ∉ (mergeAnalyses [sampleAnalysis, sampleAnalysisB]).exports :=
  C10_merged_export_test_false [sampleAnalysis, sampleAnalysisB]
    (by rw [mergeAnalyses_exports]; decide) mergedMainEntry (by decide)

/-! ### The call-rewriting rule of the merge (C5) -/

/-- The rewrite rule as the claim words it, as a function of the merged
graph's key list in iteration order: bind to `C::L` when that key exists,
else to the first key starting with `C::`, else keep the raw name `C`. -/
def claimResolve (keys : List String) (lbl c : String) : String :=
  if (c ++ "::" ++ lbl) ∈ keys then c ++ "::" ++ lbl
  else
    match keys.find? (fun k => strStartsWith (c ++ "::") k) with
    | some k => k
    | none => c

lemma mapHas_iff_mem (m : List (String × FunctionNode)) (k : String) :
    mapHas m k = true ↔ k ∈ m.map Prod.fst := by
  unfold mapHas
  have : (m.find? (fun e => e.1 == k)).isSome = (mapGet m k).isSome := by
    unfold mapGet
    cases m.find? (fun e => e.1 == k) <;> rfl
  rw [this, mapGet_isSome_iff]

lemma resolveCallee_eq_claim (m : List (String × FunctionNode)) (lbl c : String) :
    resolveCallee m lbl c = claimResolve (m.map Prod.fst) lbl c := by
  unfold resolveCallee claimResolve
  have hkey : uniqueKey c lbl = c ++ "::" ++ lbl := rfl
  by_cases hmem : (c ++ "::" ++ lbl) ∈ m.map Prod.fst
  · rw [if_pos (by rw [mapHas_iff_mem, hkey]; exact hmem), if_pos hmem]
    exact hkey
  · rw [if_neg (by rw [mapHas_iff_mem, hkey]; exact hmem), if_neg hmem]
    rw [List.find?_map]
    cases hfind : m.find? (fun e => strStartsWith (c ++ "::") e.1) with
    | none =>
      rw [show m.find? ((fun k => strStartsWith (c ++ "::") k) ∘ Prod.fst) = none from hfind]
      rfl
    | some e =>
      rw [show m.find? ((fun k => strStartsWith (c ++ "::") k) ∘ Prod.fst) = some e from hfind]
      rfl

lemma pass2Steps_keys :
    ∀ (L : List (String × (String × FunctionNode))) (m : List (String × FunctionNode)),
      ((L.foldl pass2Step m).map Prod.fst) = m.map Prod.fst := by
  intro L
  induction L with
  | nil => intro m; rfl
  | cons q rest ih =>
    intro m
    simp only [List.foldl_cons]
    rw [ih, pass2Step_keys]

lemma pass2Steps_get_of_not_mem :
    ∀ (L : List (String × (String × FunctionNode))) (m : List (String × FunctionNode))
      (k : String), k ∉ L.map (fun q => uniqueKey q.2.1 q.1) →
      mapGet (L.foldl pass2Step m) k = mapGet m k := by
  intro L
  induction L with
  | nil => intro m k _; rfl
  | cons q rest ih =>
    intro m k hk
    simp only [List.foldl_cons]
    rw [List.map_cons] at hk
    have hk1 : k ≠ uniqueKey q.2.1 q.1 := fun heq => hk (heq ▸ List.mem_cons_self _ _)
    have hk2 : k ∉ rest.map (fun q => uniqueKey q.2.1 q.1) :=
      fun hmem => hk (List.mem_cons_of_mem _ hmem)
    rw [ih (pass2Step m q) k hk2]
    unfold pass2Step
    cases hget : mapGet m (uniqueKey q.2.1 q.1) with
    | none => rfl
    | some mf => exact mapGet_mapSet_ne m hk1 _

lemma pass2Pairs_map_uk (analyses : List CodeAnalysis) :
    (pass2Pairs analyses).map (fun q => uniqueKey q.2.1 q.1) = ukList analyses := by
  unfold pass2Pairs ukList
  rw [List.map_flatMap]
  congr 1
  funext a
  rw [List.map_map]
  rfl

lemma mapGet_some_lookupBy {m : List (String × FunctionNode)} {k : String} {f : FunctionNode}
    (h : mapGet m k = some f) : lookupBy Prod.fst m k = some (k, f) := by
  unfold mapGet at h
  cases hfind : m.find? (fun e => e.1 == k) with
  | none => rw [hfind] at h; exact Option.noConfusion h
  | some e0 =>
    rw [hfind] at h
    have hk : e0.1 = k := by simpa using List.find?_some hfind
    have hf : e0.2 = f := Option.some.inj h
    unfold lookupBy
    rw [show (fun e : String × FunctionNode => Prod.fst e == k) = (fun e => e.1 == k) from rfl]
    rw [hfind]
    cases e0
    simp only at hk hf
    rw [hk, hf]

lemma mergePass3_mapGet {merged : CodeAnalysis} {k : String} {f : FunctionNode}
    (h : mapGet merged.functions k = some f) :
    ∃ cb, mapGet (mergePass3 merged).functions k = some { f with calledBy := cb } := by
  have hl := mapGet_some_lookupBy h
  obtain ⟨cb, hlook, _, _⟩ := foldCallers_lookup selStable_fst
    (callEdgesBy Prod.fst merged.functions) merged.functions k (k, f) hl
  refine ⟨cb, ?_⟩
  have : (mergePass3 merged).functions
      = foldCallers Prod.fst (callEdgesBy Prod.fst merged.functions) merged.functions := rfl
  rw [this, mapGet_eq_lookup_fst, hlook]
  rfl

lemma mapGet_map_snd (g : FunctionNode → FunctionNode) :
    ∀ (m : List (String × FunctionNode)) (k : String),
      mapGet (m.map (fun e => (e.1, g e.2))) k = (mapGet m k).map g := by
  intro m
  induction m with
  | nil => intro k; rfl
  | cons e rest ih =>
    intro k
    unfold mapGet at ih ⊢
    by_cases hk : e.1 = k
    · rw [List.map_cons, List.find?_cons_of_pos _ (by simp [hk]),
        List.find?_cons_of_pos _ (by simp [hk])]
      rfl
    · rw [List.map_cons, List.find?_cons_of_neg _ (by simp [hk]),
        List.find?_cons_of_neg _ (by simp [hk])]
      exact ih k

/-- The per-record update the significance pass performs. -/
def scoreUpdate (functions : List FunctionNode) (exports : List String)
    (v : FunctionNode) : FunctionNode :=
  { v with significance := some (significanceScore functions exports v) }

lemma calculateSignificance_functions_eq (b : CodeAnalysis) :
    (calculateSignificance b).functions
      = if (b.functions.map Prod.snd).length = 0 then b.functions
        else b.functions.map (fun e =>
          (e.1, scoreUpdate (b.functions.map Prod.snd) b.exports e.2)) := by
  simp only [calculateSignificance]
  split <;> rfl

lemma calculateSignificance_mapGet (b : CodeAnalysis) (k : String) {f : FunctionNode}
    (h : mapGet b.functions k = some f) :
    ∃ fs, mapGet (calculateSignificance b).functions k = some fs
      ∧ fs.calls = f.calls ∧ fs.calledBy = f.calledBy := by
  rw [calculateSignificance_functions_eq]
  split
  · exact ⟨f, h, rfl, rfl⟩
  · rw [mapGet_map_snd (scoreUpdate (b.functions.map Prod.snd) b.exports), h]
    exact ⟨_, rfl, rfl, rfl⟩

lemma pass2Step_of_get_some {m : List (String × FunctionNode)}
    {q : String × (String × FunctionNode)} {r : FunctionNode}
    (h : mapGet m (uniqueKey q.2.1 q.1) = some r) :
    pass2Step m q = mapSet m (uniqueKey q.2.1 q.1)
      { r with calls := q.2.2.calls.map (resolveCallee m q.1), calledBy := [] } := by
  unfold pass2Step
  rw [h]

/-- C5: during cross-file merge (with collision-free keys, as guaranteed for
well-formed inputs), each raw callee name `C` of a function from file label
`L` is rewritten to `C::L` when the merged graph has that key, else to the
first key of the map starting with `C::` in iteration order, else left as the
raw string `C`. -/
theorem C5_merge_call_rewrite (analyses : List CodeAnalysis)
    (hnd : (ukList analyses).Nodup) :
    ∀ a ∈ analyses, ∀ p ∈ a.functions,
      ∃ f, mapGet (mergeAnalyses analyses).functions
             (uniqueKey p.1 (fileLabel a.fileName)) = some f
        ∧ f.calls = p.2.calls.map
            (claimResolve (((mergeAnalyses analyses).functions).map Prod.fst)
              (fileLabel a.fileName)) := by
  intro a ha p hp
  have hqmem : (fileLabel a.fileName, p) ∈ pass2Pairs analyses := by
    unfold pass2Pairs
    exact List.mem_flatMap.mpr ⟨a, ha, List.mem_map.mpr ⟨p, hp, rfl⟩⟩
  obtain ⟨L1, L2, hL⟩ := List.append_of_mem hqmem
  have hnd' : ((L1 ++ (fileLabel a.fileName, p) :: L2).map
      (fun q => uniqueKey q.2.1 q.1)).Nodup := by
    rw [← hL, pass2Pairs_map_uk]
    exact hnd
  rw [List.map_append, List.map_cons] at hnd'
  have hmid := List.nodup_middle.mp hnd'
  have hnotin := (List.nodup_cons.mp hmid).1
  have hukL1 : uniqueKey p.1 (fileLabel a.fileName) ∉ L1.map (fun q => uniqueKey q.2.1 q.1) :=
    fun hmem => hnotin (List.mem_append.mpr (Or.inl hmem))
  have hukL2 : uniqueKey p.1 (fileLabel a.fileName) ∉ L2.map (fun q => uniqueKey q.2.1 q.1) :=
    fun hmem => hnotin (List.mem_append.mpr (Or.inr hmem))
  have hkeys0 : ((mergePass1 analyses).functions).map Prod.fst = ukList analyses :=
    mergePass1_keys_of_fresh analyses hnd
  have hukmem : uniqueKey p.1 (fileLabel a.fileName) ∈ ukList analyses := by
    unfold ukList
    exact List.mem_flatMap.mpr ⟨a, ha, List.mem_map.mpr ⟨p, hp, rfl⟩⟩
  have hsome : (mapGet (mergePass1 analyses).functions
      (uniqueKey p.1 (fileLabel a.fileName))).isSome := by
    rw [mapGet_isSome_iff, hkeys0]
    exact hukmem
  obtain ⟨r1, hr1⟩ := Option.isSome_iff_exists.mp hsome
  have hget1 : mapGet (L1.foldl pass2Step (mergePass1 analyses).functions)
      (uniqueKey p.1 (fileLabel a.fileName)) = some r1 := by
    rw [pass2Steps_get_of_not_mem L1 _ _ hukL1]
    exact hr1
  have hstep := pass2Step_of_get_some
    (m := L1.foldl pass2Step (mergePass1 analyses).functions)
    (q := (fileLabel a.fileName, p)) (r := r1) hget1
  dsimp only at hstep
  have hget2 : mapGet (mergePass2 analyses (mergePass1 analyses)).functions
        (uniqueKey p.1 (fileLabel a.fileName))
      = some { r1 with
          calls := p.2.calls.map
            (resolveCallee (L1.foldl pass2Step (mergePass1 analyses).functions)
              (fileLabel a.fileName)),
          calledBy := [] } := by
    rw [mergePass2_functions, hL, List.foldl_append, List.foldl_cons]
    rw [pass2Steps_get_of_not_mem L2 _ _ hukL2]
    rw [hstep, mapGet_mapSet_self]
  obtain ⟨cb, hget3⟩ := mergePass3_mapGet hget2
  obtain ⟨fs, hget4, hcalls4, _⟩ :=
    calculateSignificance_mapGet (mergePass3 (mergePass2 analyses (mergePass1 analyses)))
      (uniqueKey p.1 (fileLabel a.fileName)) hget3
  refine ⟨fs, hget4, ?_⟩
  rw [hcalls4]
  show List.map _ p.2.calls = _
  apply List.map_congr_left
  intro c _
  rw [resolveCallee_eq_claim]
  have hk1 : ((L1.foldl pass2Step (mergePass1 analyses).functions).map Prod.fst)
      = ukList analyses := by
    rw [pass2Steps_keys, hkeys0]
  have hk2 : (((mergeAnalyses analyses).functions).map Prod.fst) = ukList analyses := by
    rw [mergeAnalyses_keys, hkeys0]
  rw [hk1, hk2]

/-- Witness for C5 on the two-file sample: `main` (file `t.ts`) calls `help`,
which resolves to the same-file key `help::t.ts` in the merged graph. -/
theorem C5_merge_call_rewrite_witness :
    ∃ f, mapGet (mergeAnalyses [sampleAnalysis, sampleAnalysisB]).functions
           (uniqueKey "main" (fileLabel "t.ts")) = some f
      ∧ f.calls = sampleMain.calls.map
          (claimResolve
            (((mergeAnalyses [sampleAnalysis, sampleAnalysisB]).functions).map Prod.fst)
            (fileLabel "t.ts")) :=
  C5_merge_call_rewrite [sampleAnalysis, sampleAnalysisB] (by decide)
    sampleAnalysis (by decide) ("main", sampleMain) (by decide)

/-! ### Viewport significance filter (webview script)

The zoom scale and the threshold table keys are modelled as rationals; the
table's decimal keys and all comparisons the script performs on them are
exact, so the rational model coincides with the JS number behaviour on the
values involved. -/

/-- The `SIGNIFICANCE_LEVELS` table: zoom threshold ↦ minimum significance,
in object insertion order. -/
def SIGNIFICANCE_LEVELS : List (ℚ × Int) :=
  [(1/2, 70), (4/5, 50), (1, 30), (13/10, 20), (9/5, 10), (5/2, 0)]

/-- One insertion step of the ascending numeric sort. -/
def insertAsc (x : ℚ) : List ℚ → List ℚ
  | [] => [x]
  | y :: rest => if x ≤ y then x :: y :: rest else y :: insertAsc x rest

/-- Source expression `Object.keys(SIGNIFICANCE_LEVELS).map(parseFloat).sort((a, b) => a - b)`
(insertion sort; the keys are distinct, so any comparison sort agrees). -/
def sortAsc (l : List ℚ) : List ℚ := l.foldr insertAsc []

/-- The backwards scan `for (let i = thresholds.length - 1; i >= 0; i--)`:
the first threshold, from the top, not exceeding the zoom. -/
def scanDown (zoomLevel : ℚ) : List ℚ → Option ℚ
  | [] => none
  | t :: rest => if zoomLevel ≥ t then some t else scanDown zoomLevel rest

/-- Lookup `SIGNIFICANCE_LEVELS[t]` — property lookup by key (always hit for keys
drawn from the table itself; the 0 default is unreachable). -/
def levelOf (t : ℚ) : List (ℚ × Int) → Int
  | [] => 0
  | p :: rest => if p.1 = t then p.2 else levelOf t rest

/-- Function `getMinSignificance(zoomLevel)`. -/
def getMinSignificance (zoomLevel : ℚ) : Int :=
  let thresholds := sortAsc (SIGNIFICANCE_LEVELS.map Prod.fst)
  match scanDown zoomLevel thresholds.reverse with
  | some t => levelOf t SIGNIFICANCE_LEVELS
  | none => levelOf (thresholds.headD 0) SIGNIFICANCE_LEVELS

/-- Test `filesToShow.has(func.fileName)` (false for an `undefined` file name). -/
def fileShown (fileName : Option String) (filesToShow : List String) : Bool :=
  match fileName with
  | some fn => filesToShow.contains fn
  | none => false

/-- Function `shouldShowFunction(func, zoomLevel, isWorkspaceMode, expandedFiles,
filesToShow)`: the workspace file filter, then the significance threshold
with the fail-open default of 100. -/
def shouldShowFunction (func : FunctionNode) (zoomLevel : ℚ) (isWorkspaceMode : Bool)
    (expandedFiles filesToShow : List String) : Bool :=
  if isWorkspaceMode && !expandedFiles.isEmpty && !(fileShown func.fileName filesToShow) then
    false
  else
    decide ((func.significance.getD 100) ≥ getMinSignificance zoomLevel)

/-- Function `renderDetailedView`'s visible file set: the expanded clusters when any
are expanded, else all clusters. -/
def detailedFilesToShow (expandedFiles fileClusterKeys : List String) : List String :=
  if expandedFiles.isEmpty then fileClusterKeys else expandedFiles

lemma getMinSignificance_eq (zoom : ℚ) :
    getMinSignificance zoom
      = if 5/2 ≤ zoom then 0
        else if 9/5 ≤ zoom then 10
        else if 13/10 ≤ zoom then 20
        else if 1 ≤ zoom then 30
        else if 4/5 ≤ zoom then 50
        else 70 := by
  have hsort : sortAsc (SIGNIFICANCE_LEVELS.map Prod.fst)
      = [1/2, 4/5, 1, 13/10, 9/5, 5/2] := by
    norm_num [SIGNIFICANCE_LEVELS, sortAsc, insertAsc]
  have hrev : ([1/2, 4/5, 1, 13/10, 9/5, 5/2] : List ℚ).reverse
      = [5/2, 9/5, 13/10, 1, 4/5, 1/2] := by
    norm_num
  simp only [getMinSignificance, hsort, hrev]
  split_ifs with h1 h2 h3 h4 h5
  · norm_num [scanDown, h1, levelOf, SIGNIFICANCE_LEVELS]
  · norm_num [scanDown, h1, h2, levelOf, SIGNIFICANCE_LEVELS]
  · norm_num [scanDown, h1, h2, h3, levelOf, SIGNIFICANCE_LEVELS]
  · norm_num [scanDown, h1, h2, h3, h4, levelOf, SIGNIFICANCE_LEVELS]
  · norm_num [scanDown, h1, h2, h3, h4, h5, levelOf, SIGNIFICANCE_LEVELS]
  · by_cases h6 : (1:ℚ)/2 ≤ zoom
    · norm_num [scanDown, h1, h2, h3, h4, h5, h6, levelOf, SIGNIFICANCE_LEVELS]
    · norm_num [scanDown, h1, h2, h3, h4, h5, h6, levelOf, SIGNIFICANCE_LEVELS]

/-- C4 counterexample: a node belonging to the only expanded cluster, with
significance 0 at zoom 1/2 (cutoff 70), is NOT displayed — the claimed
force-include of expanded-cluster nodes does not exist in the code. -/
theorem C4_counterexample :
    shouldShowFunction
      { sampleMain with fileName := some "a.ts", significance := some 0 }
      (1/2) true ["a.ts"] (detailedFilesToShow ["a.ts"] []) = false := by
  have hmin : getMinSignificance (1/2) = 70 := by
    rw [getMinSignificance_eq]
    norm_num
  unfold shouldShowFunction
  rw [if_neg ?_]
  · rw [hmin]
    norm_num [sampleMain]
  · simp [detailedFilesToShow, fileShown, sampleMain]

/-- C4 amended: when a focus override is active (some clusters expanded),
nodes outside the expanded clusters are excluded, while a node inside an
expanded cluster is displayed iff its defaulted significance meets the zoom
cutoff — the override restricts the displayed set; it does not bypass the
significance threshold. -/
theorem C4_expanded_cluster_filter (func : FunctionNode) (zoomLevel : ℚ)
    (expandedFiles fileClusterKeys : List String) (fn : String)
    (hne : expandedFiles ≠ [])
    (hfn : func.fileName = some fn) (hmem : fn ∈ expandedFiles) :
    shouldShowFunction func zoomLevel true expandedFiles
        (detailedFilesToShow expandedFiles fileClusterKeys)
      = decide ((func.significance.getD 100) ≥ getMinSignificance zoomLevel)
    ∧ (∀ g : FunctionNode, ∀ gn, g.fileName = some gn → gn ∉ expandedFiles →
        shouldShowFunction g zoomLevel true expandedFiles
          (detailedFilesToShow expandedFiles fileClusterKeys) = false) := by
  have hshow : detailedFilesToShow expandedFiles fileClusterKeys = expandedFiles := by
    unfold detailedFilesToShow
    rw [if_neg (by simpa using hne)]
  constructor
  · unfold shouldShowFunction
    rw [hshow]
    rw [if_neg ?_]
    simp [fileShown, hfn, hmem, hne]
  · intro g gn hgfn hgmem
    unfold shouldShowFunction
    rw [hshow]
    rw [if_pos ?_]
    simp [fileShown, hgfn, hgmem, hne]

/-- Witness for the amended C4 at a concrete node inside the expanded
cluster and one outside it. -/
theorem C4_expanded_cluster_filter_witness :
    (shouldShowFunction { sampleMain with fileName := some "a.ts", significance := some 0 }
        (1/2) true ["a.ts"] (detailedFilesToShow ["a.ts"] ["a.ts", "b.ts"])
      = decide ((({ sampleMain with fileName := some "a.ts", significance := some 0 }
            : FunctionNode).significance.getD 100) ≥ getMinSignificance (1/2)))
    ∧ (∀ g : FunctionNode, ∀ gn, g.fileName = some gn → gn ∉ ["a.ts"] →
        shouldShowFunction g (1/2) true ["a.ts"]
          (detailedFilesToShow ["a.ts"] ["a.ts", "b.ts"]) = false) :=
  C4_expanded_cluster_filter
    { sampleMain with fileName := some "a.ts", significance := some 0 }
    (1/2) ["a.ts"] ["a.ts", "b.ts"] "a.ts" (by decide) rfl (by decide)

/-- C7: at any zoom at or above the lowest table threshold, the cutoff is the
`minSignificance` paired with the greatest `scaleThreshold` not exceeding the
zoom; a node (with the file filter inactive) is eligible iff its significance
meets that cutoff; and a node with no significance value defaults to 100 and
is always eligible. -/
theorem C7_zoom_cutoff (func : FunctionNode) (zoom : ℚ) (h : 1/2 ≤ zoom) :
    (∃ t, (t, getMinSignificance zoom) ∈ SIGNIFICANCE_LEVELS ∧ t ≤ zoom
        ∧ ∀ p ∈ SIGNIFICANCE_LEVELS, p.1 ≤ zoom → p.1 ≤ t)
    ∧ (shouldShowFunction func zoom false [] [] = true
        ↔ (func.significance.getD 100) ≥ getMinSignificance zoom)
    ∧ (func.significance = none → shouldShowFunction func zoom false [] [] = true) := by
  have hcut_le : getMinSignificance zoom ≤ 70 := by
    rw [getMinSignificance_eq]
    split_ifs <;> norm_num
  have hshow : ∀ g : FunctionNode, shouldShowFunction g zoom false [] []
      = decide ((g.significance.getD 100) ≥ getMinSignificance zoom) := by
    intro g
    unfold shouldShowFunction
    rw [if_neg (by simp)]
  refine ⟨?_, ?_, ?_⟩
  · rcases le_or_lt (5/2 : ℚ) zoom with h1 | h1
    · refine ⟨5/2, ?_, h1, ?_⟩
      · rw [getMinSignificance_eq, if_pos h1]
        norm_num [SIGNIFICANCE_LEVELS]
      · intro p hp _
        simp only [SIGNIFICANCE_LEVELS, List.mem_cons, List.not_mem_nil, or_false] at hp
        rcases hp with rfl | rfl | rfl | rfl | rfl | rfl <;> norm_num
    · rcases le_or_lt (9/5 : ℚ) zoom with h2 | h2
      · refine ⟨9/5, ?_, h2, ?_⟩
        · rw [getMinSignificance_eq, if_neg (by linarith), if_pos h2]
          norm_num [SIGNIFICANCE_LEVELS]
        · intro p hp hpz
          simp only [SIGNIFICANCE_LEVELS, List.mem_cons, List.not_mem_nil, or_false] at hp
          rcases hp with rfl | rfl | rfl | rfl | rfl | rfl <;> norm_num
          all_goals (norm_num at hpz; linarith)
      · rcases le_or_lt (13/10 : ℚ) zoom with h3 | h3
        · refine ⟨13/10, ?_, h3, ?_⟩
          · rw [getMinSignificance_eq, if_neg (by linarith), if_neg (by linarith), if_pos h3]
            norm_num [SIGNIFICANCE_LEVELS]
          · intro p hp hpz
            simp only [SIGNIFICANCE_LEVELS, List.mem_cons, List.not_mem_nil, or_false] at hp
            rcases hp with rfl | rfl | rfl | rfl | rfl | rfl <;> norm_num
            all_goals (norm_num at hpz; linarith)
        · rcases le_or_lt (1 : ℚ) zoom with h4 | h4
          · refine ⟨1, ?_, h4, ?_⟩
            · rw [getMinSignificance_eq, if_neg (by linarith), if_neg (by linarith),
                if_neg (by linarith), if_pos h4]
              norm_num [SIGNIFICANCE_LEVELS]
            · intro p hp hpz
              simp only [SIGNIFICANCE_LEVELS, List.mem_cons, List.not_mem_nil, or_false] at hp
              rcases hp with rfl | rfl | rfl | rfl | rfl | rfl <;> norm_num
              all_goals (norm_num at hpz; linarith)
          · rcases le_or_lt (4/5 : ℚ) zoom with h5 | h5
            · refine ⟨4/5, ?_, h5, ?_⟩
              · rw [getMinSignificance_eq, if_neg (by linarith), if_neg (by linarith),
                  if_neg (by linarith), if_neg (by linarith), if_pos h5]
                norm_num [SIGNIFICANCE_LEVELS]
              · intro p hp hpz
                simp only [SIGNIFICANCE_LEVELS, List.mem_cons, List.not_mem_nil, or_false] at hp
                rcases hp with rfl | rfl | rfl | rfl | rfl | rfl <;> norm_num
                all_goals (norm_num at hpz; linarith)
            · refine ⟨1/2, ?_, h, ?_⟩
              · rw [getMinSignificance_eq, if_neg (by linarith), if_neg (by linarith),
                  if_neg (by linarith), if_neg (by linarith), if_neg (by linarith)]
                norm_num [SIGNIFICANCE_LEVELS]
              · intro p hp hpz
                simp only [SIGNIFICANCE_LEVELS, List.mem_cons, List.not_mem_nil, or_false] at hp
                rcases hp with rfl | rfl | rfl | rfl | rfl | rfl <;> norm_num
                all_goals (norm_num at hpz; linarith)
  · rw [hshow]
    simp
  · intro hnone
    rw [hshow, hnone]
    simp only [Option.getD_none]
    rw [decide_eq_true_eq]
    omega

/-- Witness for C7 at zoom 1 (cutoff 30) and a node with significance 50. -/
theorem C7_zoom_cutoff_witness :
    (∃ t, (t, getMinSignificance 1) ∈ SIGNIFICANCE_LEVELS ∧ t ≤ 1
        ∧ ∀ p ∈ SIGNIFICANCE_LEVELS, p.1 ≤ 1 → p.1 ≤ t)
    ∧ (shouldShowFunction { sampleMain with significance := some 50 } 1 false [] [] = true
        ↔ ((({ sampleMain with significance := some 50 } : FunctionNode).significance.getD 100)
            ≥ getMinSignificance 1))
    ∧ (({ sampleMain with significance := some 50 } : FunctionNode).significance = none →
        shouldShowFunction { sampleMain with significance := some 50 } 1 false [] [] = true) :=
  C7_zoom_cutoff { sampleMain with significance := some 50 } 1 (by norm_num)

/-! ### Hierarchical layout (`calculateHierarchicalLayout` in the layout module)

The recursive traversals of the source use visited sets that grow on every
effective step, so they always terminate; they are embedded with an explicit
fuel parameter, instantiated with bounds the traversals can never exhaust
(recursion depth is capped by the number of distinct node names, loop length
by the visit and push counts). -/

/-- The layout module's `FunctionInfo` record. -/
structure FunctionInfo where
  name : String
  calls : List String
  calledBy : List String
  fileName : Option String := none
  complexity : Option Int := none
deriving DecidableEq, Repr

/-- A computed 2D position (`Position` without the optional velocities the
hierarchical layout never writes). -/
structure LayoutPosition where
  x : ℚ
  y : ℚ
deriving DecidableEq, Repr

/-- JS `Set.add` on the insertion-ordered list model of a JS `Set`. -/
def setAdd (s : List String) (x : String) : List String :=
  if x ∈ s then s else s ++ [x]

/-- Function `getMaxDepth(node, depthVisited)`: longest resolvable call chain from
`node`, with a per-path copy of the visited set (`new Set(depthVisited)`). -/
def getMaxDepth (functions : List FunctionInfo) :
    Nat → FunctionInfo → List String → Nat
  | 0, _, _ => 0
  | fuel + 1, node, depthVisited =>
    if node.name ∈ depthVisited then 0
    else
      let dv := depthVisited ++ [node.name]
      if node.calls.isEmpty then 0
      else node.calls.foldl (fun maxDepth calledName =>
        match functions.find? (fun f => f.name == calledName) with
        | some called => max maxDepth (getMaxDepth functions fuel called dv + 1)
        | none => maxDepth) 0

/-- Fuel for `getMaxDepth`: the per-path visited set caps recursion depth at
the number of functions. -/
def hierFuel (functions : List FunctionInfo) : Nat := functions.length + 1

/-- The chain walk seeded at one meaningful node: pop from the stack's end,
mark visited and meaningful, push unvisited resolvable callees. -/
def chainLoop (functions : List FunctionInfo) :
    Nat → List FunctionInfo → List String → List String → List String
  | 0, _, _, meaningful => meaningful
  | fuel + 1, toVisit, chainVisited, meaningful =>
    match toVisit.getLast? with
    | none => meaningful
    | some current =>
      let rest := toVisit.dropLast
      if current.name ∈ chainVisited then chainLoop functions fuel rest chainVisited meaningful
      else
        let cv := setAdd chainVisited current.name
        let mn := setAdd meaningful current.name
        let newStack := current.calls.foldl (fun st calledName =>
          match functions.find? (fun f => f.name == calledName) with
          | some called => if called.name ∈ cv then st else st ++ [called]
          | none => st) rest
        chainLoop functions fuel newStack cv mn

/-- Fuel for `chainLoop`: every iteration pops one element, and at most one
push per call edge per visited node can ever happen. -/
def chainFuel (functions : List FunctionInfo) : Nat :=
  (functions.length + 1) * (functions.foldl (fun n f => n + f.calls.length) 0 + 2)

/-- First pass of the meaningful-subset computation: seed from nodes with
call-chain depth ≥ 2 or caller count ≥ 2 and absorb their chains. -/
def meaningfulNodes (functions : List FunctionInfo) : List String :=
  functions.foldl (fun mn func =>
    if getMaxDepth functions (hierFuel functions) func [] ≥ 2 ∨ func.calledBy.length ≥ 2 then
      chainLoop functions (chainFuel functions) [func] [] (setAdd mn func.name)
    else mn) []

/-- Second pass: also include the callers of meaningful nodes (checking the
set as it grows, as the source's `forEach` does). -/
def meaningfulWithCallers (functions : List FunctionInfo) : List String :=
  functions.foldl (fun mn func =>
    func.calls.foldl (fun mn2 calledName =>
      if calledName ∈ mn2 then setAdd mn2 func.name else mn2) mn)
    (meaningfulNodes functions)

/-- Selection `functionsToDisplay`: the meaningful subset, or every connected node when
nothing qualifies as meaningful. -/
def functionsToDisplay (functions : List FunctionInfo) : List FunctionInfo :=
  let mn := meaningfulWithCallers functions
  if mn.length > 0 then functions.filter (fun f => decide (f.name ∈ mn))
  else functions.filter (fun f => decide (f.calls.length > 0 ∨ f.calledBy.length > 0))

/-- Selection `roots`: displayed nodes with no callers or no meaningful caller, with the
first displayed node as fallback when none qualifies. -/
def hierRoots (functions : List FunctionInfo) : List FunctionInfo :=
  let mn := meaningfulWithCallers functions
  let ftd := functionsToDisplay functions
  let roots := ftd.filter (fun f =>
    decide (f.calledBy.length = 0) || !(f.calledBy.any (fun caller => decide (caller ∈ mn))))
  if roots.isEmpty && !ftd.isEmpty then ftd.take 1 else roots

/-- Operations `levels.set` / `push` on the level map. -/
def levelsAdd : List (Nat × List FunctionInfo) → Nat → FunctionInfo
    → List (Nat × List FunctionInfo)
  | [], lv, node => [(lv, [node])]
  | e :: rest, lv, node =>
    if e.1 = lv then (e.1, e.2 ++ [node]) :: rest
    else e :: levelsAdd rest lv node

/-- Function `assignLevels(node, level)`: first-visit DFS level assignment over the
displayed subset; already-visited nodes are never relabeled. -/
def assignLevels (ftd : List FunctionInfo) :
    Nat → FunctionInfo → Nat → List String × List (Nat × List FunctionInfo)
    → List String × List (Nat × List FunctionInfo)
  | 0, _, _, st => st
  | fuel + 1, node, level, st =>
    if node.name ∈ st.1 then st
    else
      let st1 := (st.1 ++ [node.name], levelsAdd st.2 level node)
      node.calls.foldl (fun s calledName =>
        match ftd.find? (fun f => f.name == calledName) with
        | some called => assignLevels ftd fuel called (level + 1) s
        | none => s) st1

/-- The `(visited, levels)` state after running `assignLevels` from every
root. -/
def hierState (functions : List FunctionInfo) :
    List String × List (Nat × List FunctionInfo) :=
  (hierRoots functions).foldl (fun st root =>
    assignLevels (functionsToDisplay functions) (functions.length + 2) root 0 st) ([], [])

/-- The per-level `forEach((node, index))` placement loop. -/
def placeLevelNodes (functions : List FunctionInfo) (width y : ℚ) (nodeCount : Nat) :
    List LayoutPosition → Nat → List FunctionInfo → List LayoutPosition
  | positions, _, [] => positions
  | positions, index, node :: rest =>
    let horizontalPadding : ℚ := 150
    let x := if nodeCount = 1 then width / 2
      else
        let availableWidth := width - 2 * horizontalPadding
        let spacing := min 250 (availableWidth / ((nodeCount : ℚ) - 1))
        let totalWidth := spacing * ((nodeCount : ℚ) - 1)
        let startX := (width - totalWidth) / 2
        startX + spacing * (index : ℚ)
    let positions1 := match functions.findIdx? (fun f => decide (f = node)) with
      | some funcIndex => positions.set funcIndex { x := x, y := y }
      | none => positions
    placeLevelNodes functions width y nodeCount positions1 (index + 1) rest

/-- Function `calculateHierarchicalLayout(functions, width, height)`: visited nodes
start at the origin and unvisited ones at the off-canvas sentinel
`(-10000, -10000)`; each level is then placed on its horizontal band. -/
def calculateHierarchicalLayout (functions : List FunctionInfo) (width height : ℚ) :
    List LayoutPosition :=
  let st := hierState functions
  let visited := st.1
  let levels := st.2
  let base := functions.map (fun f =>
    if f.name ∈ visited then ({ x := 0, y := 0 } : LayoutPosition)
    else { x := -10000, y := -10000 })
  -- `levels.size > 0 ? Math.max(...levels.keys()) : 0`: levels are naturals,
  -- so folding `max` from 0 agrees in both the empty and non-empty case.
  let maxLevel := (levels.map Prod.fst).foldl max 0
  let verticalPadding : ℚ := 120
  levels.foldl (fun positions lv =>
    let y := if maxLevel > 0 then
        verticalPadding + ((lv.1 : ℚ) / (maxLevel : ℚ)) * (height - 2 * verticalPadding)
      else height / 2
    placeLevelNodes functions width y lv.2.length positions 0 lv.2) base

/-- The chain `A→B→C` plus the isolated `D` of the claim. -/
def fnA : FunctionInfo := { name := "A", calls := ["B"], calledBy := [] }

/-- Chain member `B`. -/
def fnB : FunctionInfo := { name := "B", calls := ["C"], calledBy := ["A"] }

/-- Chain member `C`. -/
def fnC : FunctionInfo := { name := "C", calls := [], calledBy := ["B"] }

/-- The isolated node `D`. -/
def fnD : FunctionInfo := { name := "D", calls := [], calledBy := [] }

/-- The concrete input of claim C8. -/
def chainInput : List FunctionInfo := [fnA, fnB, fnC, fnD]

/-- C8: on the chain `A→B→C` plus isolated `D`, the hierarchical layout
assigns `A`, `B`, `C` the three distinct levels 0, 1, 2, placed at the three
distinct band heights 120, 400, 680 (canvas 1000×800), while `D` is not
leveled and receives the off-canvas sentinel; on this input every node is
either leveled or excluded — never both, never neither. -/
theorem C8_chain_layout :
    (hierState chainInput).1 = ["A", "B", "C"]
    ∧ (hierState chainInput).2.map (fun lv => (lv.1, lv.2.map FunctionInfo.name))
        = [(0, ["A"]), (1, ["B"]), (2, ["C"])]
    ∧ calculateHierarchicalLayout chainInput 1000 800
        = [⟨500, 120⟩, ⟨500, 400⟩, ⟨500, 680⟩, ⟨-10000, -10000⟩]
    ∧ ((120 : ℚ) ≠ 400 ∧ (120 : ℚ) ≠ 680 ∧ (400 : ℚ) ≠ 680)
    ∧ chainInput.map (fun f => decide (f.name ∈ (hierState chainInput).1))
        = [true, true, true, false]
    ∧ (calculateHierarchicalLayout chainInput 1000 800).map
          (fun p => decide (p = ⟨-10000, -10000⟩))
        = [false, false, false, true] := by
  have hst : hierState chainInput
      = (["A", "B", "C"], [(0, [fnA]), (1, [fnB]), (2, [fnC])]) := by decide
  have hpos : calculateHierarchicalLayout chainInput 1000 800
      = [⟨500, 120⟩, ⟨500, 400⟩, ⟨500, 680⟩, ⟨-10000, -10000⟩] := by
    simp only [calculateHierarchicalLayout, hst]
    norm_num [chainInput, fnA, fnB, fnC, fnD, placeLevelNodes, LayoutPosition.mk.injEq,
      List.findIdx?]
    rw [if_neg (by decide)]
    rfl
  refine ⟨by rw [hst], by rw [hst]; decide, hpos, by norm_num, by rw [hst]; decide, ?_⟩
  rw [hpos]
  simp only [List.map_cons, List.map_nil]
  norm_num [LayoutPosition.mk.injEq]

/-! ### Position sanitation before rendering (`renderVisualization`)

A JS number that is `NaN` — and an `undefined` coordinate — is modelled as
`none`; finite coordinates are rationals.  `rnd n` models the value of the
n-th `Math.random()` call, a number in `[0, 1)`. -/

/-- A possibly-invalid layout position as seen by the validation loop. -/
structure RawPosition where
  x : Option ℚ
  y : Option ℚ
deriving DecidableEq, Repr

/-- The validation loop of `renderVisualization`: any position whose `x` or
`y` is invalid is overwritten, in both coordinates, with a randomized
position around the canvas centre (`width/2 + (Math.random() - 0.5) * 100`,
same for `y`). -/
def patchPositions (positions : List RawPosition) (width height : ℚ)
    (rnd : Nat → ℚ) : List RawPosition :=
  positions.enum.map (fun en =>
    if en.2.x = none ∨ en.2.y = none then
      { x := some (width / 2 + (rnd (2 * en.1) - 1/2) * 100),
        y := some (height / 2 + (rnd (2 * en.1 + 1) - 1/2) * 100) }
    else en.2)

/-- C9: after the validation loop, every position handed to rendering has
both coordinates defined; a position that was invalid is replaced by one
within 50 pixels of the canvas centre in each axis, and a valid position is
passed through unchanged. -/
theorem C9_no_invalid_coordinates (positions : List RawPosition) (width height : ℚ)
    (rnd : Nat → ℚ) (hr : ∀ n, 0 ≤ rnd n ∧ rnd n < 1) :
    (patchPositions positions width height rnd).length = positions.length
    ∧ ∀ (i : Nat) (p : RawPosition), positions[i]? = some p →
        ∃ q : RawPosition, (patchPositions positions width height rnd)[i]? = some q
          ∧ q.x.isSome ∧ q.y.isSome
          ∧ ((p.x = none ∨ p.y = none) →
              ∃ qx qy, q.x = some qx ∧ q.y = some qy
                ∧ |qx - width / 2| ≤ 50 ∧ |qy - height / 2| ≤ 50)
          ∧ (p.x ≠ none ∧ p.y ≠ none → q = p) := by
  constructor
  · unfold patchPositions
    rw [List.length_map, List.enum_length]
  · intro i p hp
    have hq : (patchPositions positions width height rnd)[i]?
        = some (if p.x = none ∨ p.y = none then
            ({ x := some (width / 2 + (rnd (2 * i) - 1/2) * 100),
               y := some (height / 2 + (rnd (2 * i + 1) - 1/2) * 100) } : RawPosition)
          else p) := by
      unfold patchPositions
      rw [List.getElem?_map, List.getElem?_enum, hp]
      rfl
    by_cases hbad : p.x = none ∨ p.y = none
    · rw [if_pos hbad] at hq
      refine ⟨_, hq, by simp, by simp, ?_, ?_⟩
      · intro _
        refine ⟨_, _, rfl, rfl, ?_, ?_⟩
        · have h1 := (hr (2 * i)).1
          have h2 := (hr (2 * i)).2
          rw [abs_le]
          constructor <;> nlinarith
        · have h1 := (hr (2 * i + 1)).1
          have h2 := (hr (2 * i + 1)).2
          rw [abs_le]
          constructor <;> nlinarith
      · intro hgood
        rcases hbad with hb | hb
        · exact absurd hb hgood.1
        · exact absurd hb hgood.2
    · rw [if_neg hbad] at hq
      push_neg at hbad
      refine ⟨p, hq, ?_, ?_, ?_, fun _ => rfl⟩
      · rw [Option.isSome_iff_ne_none]
        exact hbad.1
      · rw [Option.isSome_iff_ne_none]
        exact hbad.2
      · intro hcontra
        rcases hcontra with hb | hb
        · exact absurd hb hbad.1
        · exact absurd hb hbad.2

/-- Witness for C9 on a two-element list with one invalid position. -/
theorem C9_no_invalid_coordinates_witness :
    (patchPositions [⟨none, some 3⟩, ⟨some 1, some 2⟩] 800 600 (fun _ => 1/2)).length
        = ([⟨none, some 3⟩, ⟨some 1, some 2⟩] : List RawPosition).length
    ∧ ∀ (i : Nat) (p : RawPosition),
        (([⟨none, some 3⟩, ⟨some 1, some 2⟩] : List RawPosition))[i]? = some p →
        ∃ q : RawPosition,
          (patchPositions [⟨none, some 3⟩, ⟨some 1, some 2⟩] 800 600 (fun _ => 1/2))[i]?
              = some q
          ∧ q.x.isSome ∧ q.y.isSome
          ∧ ((p.x = none ∨ p.y = none) →
              ∃ qx qy, q.x = some qx ∧ q.y = some qy
                ∧ |qx - 800 / 2| ≤ 50 ∧ |qy - 600 / 2| ≤ 50)
          ∧ (p.x ≠ none ∧ p.y ≠ none → q = p) :=
  C9_no_invalid_coordinates [⟨none, some 3⟩, ⟨some 1, some 2⟩] 800 600 (fun _ => 1/2)
    (fun n => by norm_num)

end CodeFlow
